import Mathlib

/-!
Verification of the Amazon-transactions-to-CSV userscript
(src/amazon-transactions-to-csv.js).

The script's pure core is embedded shallowly:

* `normalizeSpace`, `parseDateToISO`, `parseAmountValue` model the text
  parsers.  JavaScript regular expressions are embedded as deterministic
  matching functions; for the two regexes involved the greedy maximal-munch
  strategy coincides with the backtracking semantics, as argued in the doc
  comments of the matchers.
* `csvEscape` and `buildCsv` model the serializer.
* `collectTransactions` models the scroll-driven collector.  The DOM is
  abstracted as a stream of polls, each yielding the currently rendered
  entry handles, plus an extraction function (the DOM-reading body of
  `extractTransaction` is treated as the external document collaborator).
  The unbounded `while` loop is indexed by an explicit fuel argument; a
  run that exhausts its fuel is reported as `CState.outOfFuel`, so
  statements about termination are statements about sufficient fuel.
* `enrichTransactionsWithProducts` models the enrichment stage.  The
  network (fetch + HTML parsing of the order-details page) is abstracted
  as a collaborator `String → Option NetResponse`: `none` is a network
  error (a thrown exception), `NetResponse.ok = false` a non-success
  status, and `NetResponse.products = none` a response-parse exception.
-/

/-- JavaScript `\s` restricted to the ASCII whitespace characters
(space, tab, line feed, carriage return, vertical tab, form feed). -/
def jsWs (c : Char) : Bool :=
  c = ' ' || c = '\t' || c = '\n' || c = '\r' || c = '\x0b' || c = '\x0c'

/-- JavaScript `\d`. -/
def isDigitCh (c : Char) : Bool :=
  '0' ≤ c && c ≤ '9'

/-- JavaScript `[A-Za-z]`. -/
def isAlphaCh (c : Char) : Bool :=
  ('A' ≤ c && c ≤ 'Z') || ('a' ≤ c && c ≤ 'z')

/-- The run-collapsing part of `normalizeSpace`:
`value.replace(/\s+/g, ' ')`.  The flag records whether we are inside a
whitespace run whose replacement space has already been emitted. -/
def collapseWsAux : Bool → List Char → List Char
  | _, [] => []
  | inRun, c :: cs =>
    if jsWs c then
      if inRun then collapseWsAux true cs
      else ' ' :: collapseWsAux true cs
    else c :: collapseWsAux false cs

/-- Remove the trailing whitespace run (the right half of `.trim()`). -/
def trimEndWs : List Char → List Char
  | [] => []
  | c :: cs =>
    match trimEndWs cs with
    | [] => if jsWs c then [] else [c]
    | r => c :: r

/-- `normalizeSpace(value)`: collapse every whitespace run to a single
space, then trim both ends. -/
def normalizeSpace (s : String) : String :=
  String.mk (trimEndWs ((collapseWsAux false s.data).dropWhile jsWs))

/-- The `/[",\n]/.test(str)` check of `csvEscape`. -/
def needsQuote (s : String) : Bool :=
  s.data.any (fun c => c = '"' || c = ',' || c = '\n')

/-- The `str.replace(/"/g, '""')` step of `csvEscape`. -/
def escQuotes : List Char → List Char
  | [] => []
  | c :: cs => if c = '"' then '"' :: '"' :: escQuotes cs else c :: escQuotes cs

/-- `csvEscape(value)` for string fields. -/
def csvEscape (s : String) : String :=
  if needsQuote s then String.mk ('"' :: escQuotes s.data ++ ['"']) else s

/-- Modelled from the spec: a conformant CSV reader for one serialized
field (the inverse direction of the round-trip property; no such reader
exists in the source).  A field starting with a double quote is read as a
quoted field whose doubled quotes denote literal quotes and whose single
quote closes the field; any other field is read verbatim. -/
def csvUnquoteBody : List Char → List Char
  | [] => []
  | c :: cs =>
    if c = '"' then
      match cs with
      | c2 :: cs2 => if c2 = '"' then '"' :: csvUnquoteBody cs2 else []
      | [] => []
    else c :: csvUnquoteBody cs

/-- Modelled from the spec: entry point of the conformant CSV field
reader, see `csvUnquoteBody`. -/
def csvParseField : List Char → List Char
  | [] => []
  | c :: cs => if c = '"' then csvUnquoteBody cs else c :: cs

/-- The record produced by `extractTransaction`:
`{ date, cardDetails, orderNumber, totalAmount, products: [] }`. -/
structure Transaction where
  date : String
  cardDetails : String
  orderNumber : String
  totalAmount : String
  products : List String
deriving DecidableEq, Repr

/-- The `maxProducts` reduction of `buildCsv`:
`rows.reduce((max, row) => Math.max(max, row.products.length), 0)`. -/
def maxProducts (rows : List Transaction) : Nat :=
  rows.foldl (fun m r => max m r.products.length) 0

/-- The generated product column names of `buildCsv`:
`Array.from({length}, (_, i) => 'product_' + (i+1))`. -/
def productHeaders (n : Nat) : List String :=
  (List.range n).map (fun i => "product_" ++ toString (i + 1))

/-- The header row of `buildCsv`. -/
def headerFields (rows : List Transaction) : List String :=
  [("date"), ("card_details"), ("order_number"), ("total_amount")]
    ++ productHeaders (maxProducts rows)

/-- The padded product cells of one row of `buildCsv`:
`Array.from({length: maxProducts}, (_, i) => productValues[i] || '')`.
JavaScript's `|| ''` maps both a missing entry and an empty string to the
empty string, which is exactly `List.getD` with default `""`. -/
def paddedProducts (n : Nat) (ps : List String) : List String :=
  (List.range n).map (fun i => ps.getD i "")

/-- The full field list of one data row of `buildCsv`. -/
def rowFields (n : Nat) (r : Transaction) : List String :=
  [r.date, r.cardDetails, r.orderNumber, r.totalAmount]
    ++ paddedProducts n r.products

/-- `buildCsv(rows)`: header line followed by one line per row, fields
escaped with `csvEscape` and comma-joined, lines newline-joined. -/
def buildCsv (rows : List Transaction) : String :=
  let n := maxProducts rows
  String.intercalate ("\n")
    (String.intercalate (",") (headerFields rows)
      :: rows.map (fun r => String.intercalate (",") ((rowFields n r).map csvEscape)))

/-- The network collaborator's answer for one order-details fetch.
`ok` is `response.ok`; `products` is the line-item titles extracted from
the response body by `parseProductsFromOrderHtml`, with `none` standing
for a response-read or parse exception. -/
structure NetResponse where
  ok : Bool
  products : Option (List String)
deriving DecidableEq, Repr

/-- `fetchOrderProducts(orderNumber)` with the network abstracted as
`net : String → Option NetResponse` (keyed by the order number, since the
details URL is a fixed injective function of it).  `net _ = none` is a
network error, i.e. a thrown exception, modelled as `Except.error`;
`ok = false` returns `[]`; a parse exception also throws. -/
def fetchOrderProducts (net : String → Option NetResponse) (orderNumber : String) :
    Except Unit (List String) :=
  if orderNumber = "" then Except.ok []
  else
    match net orderNumber with
    | none => Except.error ()
    | some resp =>
      if resp.ok then
        match resp.products with
        | some ps => Except.ok ps
        | none => Except.error ()
      else Except.ok []

/-- One iteration of the enrichment loop: the `try { ... } catch { cache []
}` around `fetchOrderProducts`. -/
def cachedFetch (net : String → Option NetResponse) (o : String) : List String :=
  match fetchOrderProducts net o with
  | Except.ok ps => ps
  | Except.error _ => []

/-- First-occurrence deduplication, the behaviour of `new Set(...)`
iterated in insertion order. -/
def dedupAcc (seen : List String) : List String → List String
  | [] => []
  | x :: xs => if x ∈ seen then dedupAcc seen xs else x :: dedupAcc (x :: seen) xs

/-- `[...new Set(rows.map(r => r.orderNumber).filter(Boolean))]`: the keys
the enrichment loop fetches, in order; each is fetched exactly once. -/
def uniqueOrders (rows : List Transaction) : List String :=
  dedupAcc [] ((rows.map (fun r => r.orderNumber)).filter (fun s => s != ""))

/-- The cache built by the enrichment loop: one entry per element of
`uniqueOrders`, in fetch order. -/
def cacheList (net : String → Option NetResponse) (rows : List Transaction) :
    List (String × List String) :=
  (uniqueOrders rows).map (fun o => (o, cachedFetch net o))

/-- `enrichTransactionsWithProducts(rows)`: fetch each unique non-empty
order number once, then map every row to its cached product list
(`cache.get(row.orderNumber) || []`; in JavaScript an array is truthy even
when empty, so `|| []` only replaces a missing cache entry). -/
def enrichTransactionsWithProducts (net : String → Option NetResponse)
    (rows : List Transaction) : List Transaction :=
  let cache := cacheList net rows
  rows.map (fun r => { r with products := (cache.lookup r.orderNumber).getD [] })

/-- The product list a single row ends up with, as a function of its own
order number alone. -/
def rowProducts (net : String → Option NetResponse) (o : String) : List String :=
  if o = "" then [] else cachedFetch net o

/-- A failed detail fetch for key `o`: network error, non-success status,
or response-parse exception. -/
def fetchFails (net : String → Option NetResponse) (o : String) : Prop :=
  o ≠ "" ∧ (net o = none
    ∨ ∃ resp, net o = some resp ∧ (resp.ok = false ∨ resp.products = none))

/-- `STALL_LIMIT = 8`. -/
def STALL_LIMIT : Nat := 8

/-- The composite deduplication key:
`` `${tx.date}|${tx.cardDetails}|${tx.orderNumber}|${tx.totalAmount}` ``. -/
def txKey (t : Transaction) : String :=
  t.date ++ ("|") ++ t.cardDetails ++ ("|") ++ t.orderNumber ++ ("|") ++ t.totalAmount

/-- Terminal classification of one collector run.  `complete` and
`stalled` are the spec's two terminal states (the code reaches them by
breaking out of the `while` loop on `records.length >= maxTransactions`
or `stallCount >= STALL_LIMIT` respectively); `outOfFuel` means the
modelling fuel ran out while the loop guard still held, i.e. the real
loop would still be running after that many iterations. -/
inductive CState where
  | complete
  | stalled
  | outOfFuel
deriving DecidableEq, Repr

/-- The inner `for (const link of links)` loop of `collectTransactions`:
extract each entry, skip `null` extractions and already-seen composite
keys, push the rest, and break as soon as `maxTransactions` is reached.
Entry handles are opaque (`E`); `extract` is the document-reading
`extractTransaction` collaborator. -/
def processLinks {E : Type} (extract : E → Option Transaction) (maxTransactions : Nat) :
    List E → List Transaction → List String → List Transaction × List String
  | [], records, seen => (records, seen)
  | link :: links, records, seen =>
    match extract link with
    | none => processLinks extract maxTransactions links records seen
    | some tx =>
      if txKey tx ∈ seen then processLinks extract maxTransactions links records seen
      else
        if maxTransactions ≤ (records ++ [tx]).length then
          (records ++ [tx], txKey tx :: seen)
        else processLinks extract maxTransactions links (records ++ [tx]) (txKey tx :: seen)

/-- The `while (records.length < maxTransactions && stallCount < STALL_LIMIT)`
loop of `collectTransactions`, one fuel unit per iteration.  `polls i` is
the list of entry handles the document presents at the i-th iteration
(the scroll command and the wait only influence what the next poll
returns, so they are absorbed into `polls`). -/
def collectLoop {E : Type} (extract : E → Option Transaction) (polls : Nat → List E)
    (maxTransactions : Nat) :
    Nat → Nat → List Transaction → List String → Nat → Nat → List Transaction × CState
  | 0, _, records, _, _, _ => (records, CState.outOfFuel)
  | fuel + 1, i, records, seen, stallCount, lastCount =>
    if records.length < maxTransactions ∧ stallCount < STALL_LIMIT then
      let rs := processLinks extract maxTransactions (polls i) records seen
      let stall2 := if rs.1.length = lastCount then stallCount + 1 else 0
      let last2 := if rs.1.length = lastCount then lastCount else rs.1.length
      if maxTransactions ≤ rs.1.length then (rs.1, CState.complete)
      else if STALL_LIMIT ≤ stall2 then (rs.1, CState.stalled)
      else collectLoop extract polls maxTransactions fuel (i + 1) rs.1 rs.2 stall2 last2
    else (records, if maxTransactions ≤ records.length then CState.complete else CState.stalled)

/-- `collectTransactions(maxTransactions)` run for at most `fuel`
iterations, including the final `records.slice(0, maxTransactions)`. -/
def collectTransactions {E : Type} (extract : E → Option Transaction) (polls : Nat → List E)
    (maxTransactions : Nat) (fuel : Nat) : List Transaction × CState :=
  let rs := collectLoop extract polls maxTransactions fuel 0 [] [] 0 0
  (rs.1.take maxTransactions, rs.2)

/-- The `MONTHS` table (case-sensitive keys, as in the source). -/
def MONTHS : List (String × String) :=
  [(("Jan"), ("01")), (("Feb"), ("02")), (("Mar"), ("03")), (("Apr"), ("04")),
   (("May"), ("05")), (("Jun"), ("06")), (("Jul"), ("07")), (("Aug"), ("08")),
   (("Sep"), ("09")), (("Oct"), ("10")), (("Nov"), ("11")), (("Dec"), ("12"))]

/-- `Number(...)` on a digit string. -/
def natOfDigits (ds : List Char) : Nat :=
  ds.foldl (fun n c => 10 * n + (c.toNat - 48)) 0

/-- `String(...).padStart(2, '0')`. -/
def padStart2 (s : String) : String :=
  String.mk (List.replicate (2 - s.length) '0') ++ s

/-- The anchored regex `/^(\d{1,2})\s+([A-Za-z]{3})\s+(\d{4})$/` of
`parseDateToISO`, embedded as a deterministic matcher returning the three
capture groups.  Maximal munch is faithful here: `\d{1,2}` followed by
`\s+` can succeed only when the maximal digit prefix has length 1 or 2
(giving back a digit would put a digit where `\s` is required);
`\s+[A-Za-z]{3}\s+` likewise forces the maximal whitespace runs and
exactly three letters (a fourth letter makes every backtracking choice
fail); and `(\d{4})$` forces the remainder to be exactly four digits. -/
def matchDate (cs : List Char) : Option (List Char × List Char × List Char) :=
  if (cs.takeWhile isDigitCh).length = 0 ∨ 2 < (cs.takeWhile isDigitCh).length then none
  else
    if ((cs.dropWhile isDigitCh).takeWhile jsWs).length = 0 then none
    else
      match (cs.dropWhile isDigitCh).dropWhile jsWs with
      | m1 :: m2 :: m3 :: r3 =>
        if isAlphaCh m1 && isAlphaCh m2 && isAlphaCh m3 then
          if (r3.takeWhile jsWs).length = 0 then none
          else
            match r3.dropWhile jsWs with
            | [y1, y2, y3, y4] =>
              if isDigitCh y1 && isDigitCh y2 && isDigitCh y3 && isDigitCh y4 then
                some (cs.takeWhile isDigitCh, [m1, m2, m3], [y1, y2, y3, y4])
              else none
            | _ => none
        else none
      | _ => none

/-- `parseDateToISO(raw)`. -/
def parseDateToISO (raw : String) : String :=
  match matchDate (normalizeSpace raw).data with
  | none => ""
  | some (ds, ms, ys) =>
    match MONTHS.lookup (String.mk ms) with
    | none => ""
    | some mm =>
      String.mk ys ++ ("-") ++ mm ++ ("-") ++ padStart2 (toString (natOfDigits ds))

/-- Case-insensitive comparison of three characters against the currency
codes `USD`, `GBP`, `EUR` (the `i` flag of the amount regex). -/
def isCurrency3 (a b c : Char) : Bool :=
  (a.toUpper = 'U' && b.toUpper = 'S' && c.toUpper = 'D')
  || (a.toUpper = 'G' && b.toUpper = 'B' && c.toUpper = 'P')
  || (a.toUpper = 'E' && b.toUpper = 'U' && c.toUpper = 'R')

/-- The `([+-]?)` group of the amount regex.  Consuming an available sign
is faithful: if the head is `+` or `-`, the empty-sign alternative would
have to match `\s*`, a currency marker or `\d` against that sign
character, which is impossible, so no backtracking is needed. -/
def signPart : List Char → String × List Char
  | [] => (("") , [])
  | c :: rest => if c = '+' || c = '-' then (String.mk [c], rest) else (("") , c :: rest)

/-- The `(?:[$£€]|USD|GBP|EUR)?` group (case-insensitive).  Consuming an
available currency marker is faithful: if the marker is present but the
rest fails, the empty alternative would have to match `\s*\d` starting at
the marker's first character (a currency symbol or a letter), which is
impossible. -/
def currencyPart : List Char → List Char
  | [] => []
  | c :: rest =>
    if c = '$' || c = '£' || c = '€' then rest
    else
      match rest with
      | b :: d :: rest2 => if isCurrency3 c b d then rest2 else c :: b :: d :: rest2
      | _ => c :: rest

/-- The character class `[\d,]`. -/
def digitOrComma (c : Char) : Bool :=
  isDigitCh c || c = ','

/-- The `(\d[\d,]*(?:\.\d{2})?)` group: one digit, a maximal run of
digits and commas (greedy `[\d,]*` never reaches the `.`), then an
optional exactly-two-digit fraction; nothing follows in the pattern, so
the greedy choices are final. -/
def digitsPart : List Char → Option (List Char × List Char)
  | [] => none
  | c :: rest =>
    if isDigitCh c then
      match rest.dropWhile digitOrComma with
      | '.' :: a :: b :: r3 =>
        if isDigitCh a && isDigitCh b then
          some (c :: rest.takeWhile digitOrComma ++ ['.', a, b], r3)
        else some (c :: rest.takeWhile digitOrComma, rest.dropWhile digitOrComma)
      | _ => some (c :: rest.takeWhile digitOrComma, rest.dropWhile digitOrComma)
    else none

/-- One attempt of the amount regex at a fixed start position: sign,
whitespace, optional currency marker, whitespace, digit group.  Returns
the sign capture and the digit-group capture. -/
def tryAmount (cs : List Char) : Option (String × List Char) :=
  match digitsPart ((currencyPart ((signPart cs).2.dropWhile jsWs)).dropWhile jsWs) with
  | some (body, _) => some ((signPart cs).1, body)
  | none => none

/-- The left-to-right scan of `String.prototype.match` with an unanchored
pattern: first position whose attempt succeeds wins. -/
def findAmount : List Char → Option (String × List Char)
  | [] => none
  | c :: cs =>
    match tryAmount (c :: cs) with
    | some r => some r
    | none => findAmount cs

/-- `parseAmountValue(rawText)`: normalize, search the amount pattern,
and return `sign ++ value.replace(/,/g, '')` (empty on no match). -/
def parseAmountValue (raw : String) : String :=
  match findAmount (normalizeSpace raw).data with
  | none => ""
  | some (sg, body) => sg ++ String.mk (body.filter (fun c => !(c = ',')))

/-- The date shape accepted by `parseDateToISO` up to its own whitespace
normalization: 1-2 digits, a space, 3 ASCII letters, a space, 4 digits. -/
def DateShape (raw : String) : Prop :=
  ∃ d m y : List Char,
    1 ≤ d.length ∧ d.length ≤ 2 ∧ (∀ c ∈ d, isDigitCh c = true)
    ∧ m.length = 3 ∧ (∀ c ∈ m, isAlphaCh c = true)
    ∧ y.length = 4 ∧ (∀ c ∈ y, isDigitCh c = true)
    ∧ (normalizeSpace raw).data = d ++ ' ' :: (m ++ ' ' :: y)

/-- No two adjacent whitespace characters (the shape of
`normalizeSpace`'s output, used to pin the matched whitespace runs down
to single spaces). -/
def noWsRun : List Char → Bool
  | [] => true
  | [_] => true
  | a :: b :: r => (!(jsWs a && jsWs b)) && noWsRun (b :: r)

theorem escQuotes_no_special {l : List Char}
    (h : ∀ c ∈ l, ¬(c = '"' ∨ c = ',' ∨ c = '\n')) : escQuotes l = l := by
  induction l with
  | nil => rfl
  | cons c cs ih =>
    have hc := h c (List.mem_cons_self c cs)
    have : ¬(c = '"') := fun hq => hc (Or.inl hq)
    simp [escQuotes, this]
    exact ih fun d hd => h d (List.mem_cons_of_mem c hd)

theorem csvUnquoteBody_escQuotes (l : List Char) :
    csvUnquoteBody (escQuotes l ++ ['"']) = l := by
  induction l with
  | nil => rfl
  | cons c cs ih =>
    by_cases hq : c = '"'
    · subst hq
      simp [escQuotes, csvUnquoteBody, ih]
    · rw [escQuotes, if_neg hq, List.cons_append, csvUnquoteBody.eq_def]
      simp [hq, ih]

theorem csvParseField_no_quote {l : List Char}
    (h : ∀ c ∈ l, ¬(c = '"' ∨ c = ',' ∨ c = '\n')) : csvParseField l = l := by
  cases l with
  | nil => rfl
  | cons c cs =>
    have hc := h c (List.mem_cons_self c cs)
    have hq : ¬(c = '"') := fun hh => hc (Or.inl hh)
    simp [csvParseField, hq]

theorem needsQuote_iff (s : String) :
    needsQuote s = true ↔ ∃ c ∈ s.data, c = ',' ∨ c = '"' ∨ c = '\n' := by
  simp only [needsQuote, List.any_eq_true, Bool.or_eq_true, decide_eq_true_eq]
  constructor
  · rintro ⟨c, hc, (h | h) | h⟩
    · exact ⟨c, hc, Or.inr (Or.inl h)⟩
    · exact ⟨c, hc, Or.inl h⟩
    · exact ⟨c, hc, Or.inr (Or.inr h)⟩
  · rintro ⟨c, hc, h | h | h⟩
    · exact ⟨c, hc, Or.inl (Or.inr h)⟩
    · exact ⟨c, hc, Or.inl (Or.inl h)⟩
    · exact ⟨c, hc, Or.inr h⟩

/-- Claim C4: `csvEscape` wraps a field in double quotes (doubling internal
quotes) if and only if the field contains a comma, double quote or newline,
emits it verbatim otherwise, and a conformant CSV field reader applied to
the escaped form reproduces the original string exactly. -/
theorem csvEscape_spec (s : String) :
    (needsQuote s = true ↔ ∃ c ∈ s.data, c = ',' ∨ c = '"' ∨ c = '\n')
    ∧ (needsQuote s = false → csvEscape s = s)
    ∧ (needsQuote s = true →
        csvEscape s = String.mk ('"' :: escQuotes s.data ++ ['"']))
    ∧ String.mk (csvParseField (csvEscape s).data) = s := by
  refine ⟨needsQuote_iff s, fun h => ?_, fun h => ?_, ?_⟩
  · simp [csvEscape, h]
  · simp [csvEscape, h]
  · by_cases h : needsQuote s = true
    · have hesc : csvEscape s = String.mk ('"' :: escQuotes s.data ++ ['"']) := by
        simp [csvEscape, h]
      rw [hesc]
      have hdata : (String.mk ('"' :: escQuotes s.data ++ ['"'])).data
          = '"' :: (escQuotes s.data ++ ['"']) := rfl
      rw [hdata]
      have hparse : csvParseField ('"' :: (escQuotes s.data ++ ['"']))
          = csvUnquoteBody (escQuotes s.data ++ ['"']) := by
        simp [csvParseField]
      rw [hparse, csvUnquoteBody_escQuotes]
    · have h2 : needsQuote s = false := by
        cases hnq : needsQuote s
        · rfl
        · exact absurd hnq h
      have hesc : csvEscape s = s := by simp [csvEscape, h2]
      rw [hesc]
      have hnone : ∀ c ∈ s.data, ¬(c = '"' ∨ c = ',' ∨ c = '\n') := by
        intro c hc hor
        apply h
        rw [needsQuote_iff]
        rcases hor with h1 | h1 | h1
        · exact ⟨c, hc, Or.inr (Or.inl h1)⟩
        · exact ⟨c, hc, Or.inl h1⟩
        · exact ⟨c, hc, Or.inr (Or.inr h1)⟩
      rw [csvParseField_no_quote hnone]

/-- Concrete instances of claim C4: the comma field round-trips through
quoting, and a quote-free field is emitted verbatim. -/
theorem csvEscape_spec_witness :
    csvEscape ("a,b") = ("\"a,b\"")
    ∧ String.mk (csvParseField (csvEscape ("he said \"hi\"")).data)
        = ("he said \"hi\"") := by
  constructor
  · have h := (csvEscape_spec ("a,b")).2.2.1 (by decide)
    rw [h]
    decide
  · exact (csvEscape_spec ("he said \"hi\"")).2.2.2

theorem le_foldl_max (rows : List Transaction) (a : Nat) :
    a ≤ rows.foldl (fun m r => max m r.products.length) a := by
  induction rows generalizing a with
  | nil => exact le_refl a
  | cons r rs ih =>
    calc a ≤ max a r.products.length := le_max_left _ _
    _ ≤ rs.foldl (fun m r => max m r.products.length) (max a r.products.length) := ih _

theorem mem_le_foldl_max (rows : List Transaction) (a : Nat) :
    ∀ r ∈ rows, r.products.length ≤ rows.foldl (fun m r => max m r.products.length) a := by
  induction rows generalizing a with
  | nil => intro r hr; cases hr
  | cons q rs ih =>
    intro r hr
    rcases List.mem_cons.mp hr with h | h
    · subst h
      calc r.products.length ≤ max a r.products.length := le_max_right _ _
      _ ≤ _ := le_foldl_max rs _
    · exact ih _ r h

theorem foldl_max_attained (rows : List Transaction) (a : Nat) :
    rows.foldl (fun m r => max m r.products.length) a = a
    ∨ ∃ r ∈ rows, rows.foldl (fun m r => max m r.products.length) a = r.products.length := by
  induction rows generalizing a with
  | nil => exact Or.inl rfl
  | cons q rs ih =>
    rcases ih (max a q.products.length) with h | ⟨r, hr, h⟩
    · rcases max_choice a q.products.length with hm | hm
      · exact Or.inl (by simpa [List.foldl_cons, hm] using h)
      · exact Or.inr ⟨q, List.mem_cons_self q rs, by simpa [List.foldl_cons, hm] using h⟩
    · exact Or.inr ⟨r, List.mem_cons_of_mem q hr, h⟩

/-- Claim C5: the serializer computes `maxProducts` as the maximum products
length over all rows (0 if none, and attained by some row otherwise), emits
a header of the four fixed scalar columns followed by exactly `maxProducts`
generated `product_i` columns, and pads every row's products with empty
strings up to exactly `maxProducts` fields. -/
theorem buildCsv_spec (rows : List Transaction) :
    (∀ r ∈ rows, r.products.length ≤ maxProducts rows)
    ∧ (maxProducts rows = 0 ∨ ∃ r ∈ rows, r.products.length = maxProducts rows)
    ∧ (headerFields rows).length = 4 + maxProducts rows
    ∧ (∀ i, i < maxProducts rows →
        (headerFields rows).get? (4 + i) = some ("product_" ++ toString (i + 1)))
    ∧ (∀ r ∈ rows, (rowFields (maxProducts rows) r).length = 4 + maxProducts rows)
    ∧ (∀ r ∈ rows, ∀ i, i < maxProducts rows →
        (rowFields (maxProducts rows) r).get? (4 + i) = some (r.products.getD i ("")))
    ∧ (∀ r ∈ rows, ∀ i, r.products.length ≤ i →
        (paddedProducts (maxProducts rows) r.products).getD i ("") = ("")) := by
  refine ⟨fun r hr => mem_le_foldl_max rows 0 r hr, ?_, ?_, ?_, ?_, ?_, ?_⟩
  · rcases foldl_max_attained rows 0 with h | ⟨r, hr, h⟩
    · exact Or.inl h
    · exact Or.inr ⟨r, hr, h.symm⟩
  · simp [headerFields, productHeaders]
    omega
  · intro i hi
    rw [headerFields, List.get?_append_right (by simp)]
    simp only [List.length_cons, List.length_nil]
    simp [productHeaders, List.get?_map]
    exact ⟨i, List.getElem?_range hi, rfl⟩
  · intro r _
    simp [rowFields, paddedProducts]
    omega
  · intro r _ i hi
    rw [rowFields, List.get?_append_right (by simp)]
    simp only [List.length_cons, List.length_nil]
    simp [paddedProducts, List.get?_map]
    exact ⟨i, List.getElem?_range hi, rfl⟩
  · intro r _ i hi
    by_cases hlt : i < maxProducts rows
    · have hsome : (paddedProducts (maxProducts rows) r.products).get? i
          = some (r.products.getD i ("")) := by
        simp [paddedProducts, List.get?_map]
        exact ⟨i, List.getElem?_range hlt, rfl⟩
      have h1 : (paddedProducts (maxProducts rows) r.products).getD i ("")
          = r.products.getD i ("") := by
        rw [List.getD_eq_getElem?_getD, ← List.get?_eq_getElem?, hsome]
        rfl
      rw [h1]
      exact List.getD_eq_default _ _ hi
    · apply List.getD_eq_default
      simp [paddedProducts]
      omega

/-- Concrete instance of claim C5: rows with products lengths `[0, 3, 1]`
give a header with exactly 3 generated product columns and pad the short
row's missing cells with empty strings. -/
theorem buildCsv_spec_witness :
    (headerFields ([⟨("a"), ("b"), ("c"), ("d"), ([] : List String)⟩,
        ⟨("a"), ("b"), ("c"), ("d"), [("p1"), ("p2"), ("p3")]⟩,
        ⟨("a"), ("b"), ("c"), ("d"), [("q1")]⟩])).length = 7
    ∧ (headerFields ([⟨("a"), ("b"), ("c"), ("d"), ([] : List String)⟩,
        ⟨("a"), ("b"), ("c"), ("d"), [("p1"), ("p2"), ("p3")]⟩,
        ⟨("a"), ("b"), ("c"), ("d"), [("q1")]⟩])).get? 6 = some ("product_3")
    ∧ (rowFields 3 (⟨("a"), ("b"), ("c"), ("d"), [("q1")]⟩ : Transaction)).get? 5
        = some ("") := by
  have h := buildCsv_spec ([⟨("a"), ("b"), ("c"), ("d"), ([] : List String)⟩,
    ⟨("a"), ("b"), ("c"), ("d"), [("p1"), ("p2"), ("p3")]⟩,
    ⟨("a"), ("b"), ("c"), ("d"), [("q1")]⟩])
  refine ⟨?_, ?_, ?_⟩
  · rw [h.2.2.1]
    decide
  · have h6 := h.2.2.2.1 2 (by decide)
    rw [show (4 + 2 : Nat) = 6 from rfl] at h6
    rw [h6]
    decide
  · have h7 := h.2.2.2.2.2.1 (⟨("a"), ("b"), ("c"), ("d"), [("q1")]⟩ : Transaction)
      (by decide) 1 (by decide)
    rw [show (4 + 1 : Nat) = 5 from rfl] at h7
    rw [show (maxProducts ([⟨("a"), ("b"), ("c"), ("d"), ([] : List String)⟩,
      ⟨("a"), ("b"), ("c"), ("d"), [("p1"), ("p2"), ("p3")]⟩,
      ⟨("a"), ("b"), ("c"), ("d"), [("q1")]⟩])) = 3 from rfl] at h7
    rw [h7]
    decide

theorem dedupAcc_mem (seen : List String) (l : List String) (x : String) :
    x ∈ dedupAcc seen l ↔ x ∈ l ∧ x ∉ seen := by
  induction l generalizing seen with
  | nil => simp [dedupAcc]
  | cons y ys ih =>
    by_cases hy : y ∈ seen
    · rw [dedupAcc, if_pos hy, ih]
      constructor
      · rintro ⟨h1, h2⟩
        exact ⟨List.mem_cons_of_mem y h1, h2⟩
      · rintro ⟨h1, h2⟩
        rcases List.mem_cons.mp h1 with h | h
        · exact absurd (h ▸ hy) h2
        · exact ⟨h, h2⟩
    · rw [dedupAcc, if_neg hy]
      by_cases hxy : x = y
      · subst hxy
        simp [hy]
      · rw [List.mem_cons]
        constructor
        · rintro (h | h)
          · exact absurd h hxy
          · rcases (ih (y :: seen)).mp h with ⟨h1, h2⟩
            exact ⟨List.mem_cons_of_mem y h1, fun hs => h2 (List.mem_cons_of_mem y hs)⟩
        · rintro ⟨h1, h2⟩
          rcases List.mem_cons.mp h1 with h | h
          · exact absurd h hxy
          · refine Or.inr ((ih (y :: seen)).mpr ⟨h, fun hs => ?_⟩)
            rcases List.mem_cons.mp hs with h3 | h3
            · exact hxy h3
            · exact h2 h3

theorem dedupAcc_nodup (seen : List String) (l : List String) :
    (dedupAcc seen l).Nodup := by
  induction l generalizing seen with
  | nil => exact List.nodup_nil
  | cons y ys ih =>
    by_cases hy : y ∈ seen
    · rw [dedupAcc, if_pos hy]
      exact ih seen
    · rw [dedupAcc, if_neg hy]
      refine List.nodup_cons.mpr ⟨fun hmem => ?_, ih (y :: seen)⟩
      exact ((dedupAcc_mem _ _ _).mp hmem).2 (List.mem_cons_self y seen)

theorem dedupAcc_sublist (seen : List String) (l : List String) :
    (dedupAcc seen l).Sublist l := by
  induction l generalizing seen with
  | nil => exact List.Sublist.refl []
  | cons y ys ih =>
    by_cases hy : y ∈ seen
    · rw [dedupAcc, if_pos hy]
      exact (ih seen).cons y
    · rw [dedupAcc, if_neg hy]
      exact (ih (y :: seen)).cons₂ y

theorem lookup_map_pair {α : Type} (f : String → α) (o : String) (l : List String) :
    List.lookup o (l.map (fun x => (x, f x))) = if o ∈ l then some (f o) else none := by
  induction l with
  | nil => simp [List.lookup]
  | cons y ys ih =>
    by_cases hxy : o = y
    · subst hxy
      simp [List.lookup, ih]
    · have hbe : (o == y) = false := beq_false_of_ne hxy
      simp [List.lookup, hbe, ih, hxy]

theorem enrich_products (net : String → Option NetResponse) (rows : List Transaction) :
    ∀ r ∈ rows,
      ((cacheList net rows).lookup r.orderNumber).getD []
        = rowProducts net r.orderNumber := by
  intro r hr
  rw [cacheList, lookup_map_pair]
  by_cases ho : r.orderNumber = ""
  · have : r.orderNumber ∉ uniqueOrders rows := by
      intro hmem
      have := (dedupAcc_mem _ _ _).mp hmem
      rcases List.mem_filter.mp this.1 with ⟨_, hne⟩
      rw [ho] at hne
      simp at hne
    rw [if_neg this, rowProducts, if_pos ho]
    rfl
  · have hmem : r.orderNumber ∈ uniqueOrders rows := by
      apply (dedupAcc_mem _ _ _).mpr
      refine ⟨List.mem_filter.mpr ⟨List.mem_map_of_mem _ hr, ?_⟩, List.not_mem_nil _⟩
      simpa using ho
    rw [if_pos hmem, rowProducts, if_neg ho]
    rfl

/-- Claim C3: the enricher fetches exactly the distinct non-empty order
numbers, each once, in first-occurrence order (`uniqueOrders` is
duplicate-free, contains exactly the non-empty order numbers of the rows,
and is an order-preserving sublist of the row order-number sequence);
rows sharing an order number receive identical product lists, and rows
with an empty order number receive the empty list. -/
theorem enrich_spec (net : String → Option NetResponse) (rows : List Transaction) :
    (uniqueOrders rows).Nodup
    ∧ (∀ o, o ∈ uniqueOrders rows ↔ (o ≠ "" ∧ o ∈ rows.map (fun r => r.orderNumber)))
    ∧ (uniqueOrders rows).Sublist (rows.map (fun r => r.orderNumber))
    ∧ (∀ r1 ∈ enrichTransactionsWithProducts net rows,
        ∀ r2 ∈ enrichTransactionsWithProducts net rows,
        r1.orderNumber = r2.orderNumber → r1.products = r2.products)
    ∧ (∀ r ∈ enrichTransactionsWithProducts net rows,
        r.orderNumber = "" → r.products = []) := by
  have hform : ∀ r1 ∈ enrichTransactionsWithProducts net rows,
      ∃ r ∈ rows, r1.orderNumber = r.orderNumber
        ∧ r1.products = rowProducts net r.orderNumber := by
    intro r1 h1
    rcases List.mem_map.mp h1 with ⟨r, hr, heq⟩
    refine ⟨r, hr, ?_, ?_⟩
    · rw [← heq]
    · rw [← heq]
      exact enrich_products net rows r hr
  refine ⟨dedupAcc_nodup _ _, ?_, ?_, ?_, ?_⟩
  · intro o
    rw [uniqueOrders, dedupAcc_mem]
    constructor
    · rintro ⟨h1, _⟩
      rcases List.mem_filter.mp h1 with ⟨hm, hne⟩
      exact ⟨by simpa using hne, hm⟩
    · rintro ⟨hne, hm⟩
      exact ⟨List.mem_filter.mpr ⟨hm, by simpa using hne⟩, List.not_mem_nil _⟩
  · exact (dedupAcc_sublist _ _).trans (List.filter_sublist _)
  · intro r1 h1 r2 h2 heq
    rcases hform r1 h1 with ⟨a, _, ha1, ha2⟩
    rcases hform r2 h2 with ⟨b, _, hb1, hb2⟩
    rw [ha2, hb2, ← ha1, ← hb1, heq]
  · intro r1 h1 hempty
    rcases hform r1 h1 with ⟨a, _, ha1, ha2⟩
    rw [ha2, ← ha1, hempty, rowProducts, if_pos rfl]

/-- Concrete instance of claim C3: two rows sharing order `A1` and one row
with an empty order number. -/
theorem enrich_spec_witness :
    ("A1") ∈ uniqueOrders ([⟨("d1"), ("c"), ("A1"), ("1.00"), []⟩,
        ⟨("d2"), ("c"), ("A1"), ("2.00"), []⟩,
        ⟨("d3"), ("c"), (""), ("3.00"), []⟩])
    ∧ (⟨("d3"), ("c"), (""), ("3.00"),
        ([] : List String)⟩ : Transaction).products = [] := by
  have h := enrich_spec
    (fun o => if o = ("A1") then some (⟨true, some [("Widget"), ("Gadget")]⟩ : NetResponse) else none)
    ([⟨("d1"), ("c"), ("A1"), ("1.00"), []⟩,
      ⟨("d2"), ("c"), ("A1"), ("2.00"), []⟩,
      ⟨("d3"), ("c"), (""), ("3.00"), []⟩])
  constructor
  · exact (h.2.1 ("A1")).mpr ⟨by decide, by decide⟩
  · exact h.2.2.2.2 (⟨("d3"), ("c"), (""), ("3.00"), []⟩ : Transaction) (by decide) rfl

/-- Claim C8: every row's product list is a function of its own order
number alone (so one key's failure cannot abort or affect the others, and
the whole row list is always produced), and every key whose detail fetch
fails — network error, non-success status, or response-parse exception —
ends up with the empty product list. -/
theorem enrich_failure_spec (net : String → Option NetResponse) (rows : List Transaction) :
    enrichTransactionsWithProducts net rows
      = rows.map (fun r => { r with products := rowProducts net r.orderNumber })
    ∧ (∀ o, fetchFails net o → rowProducts net o = []) := by
  constructor
  · rw [enrichTransactionsWithProducts]
    apply List.map_congr_left
    intro r hr
    rw [enrich_products net rows r hr]
  · rintro o ⟨hne, hfail⟩
    rw [rowProducts, if_neg hne, cachedFetch, fetchOrderProducts, if_neg hne]
    rcases hfail with h | ⟨resp, hresp, hko⟩
    · rw [h]
    · rw [hresp]
      rcases hko with h1 | h1
      · simp [h1]
      · rcases hok : resp.ok with _ | _
        · simp [hok]
        · simp [hok, h1]

/-- Concrete instance of claim C8: order `B2` suffers a network error,
order `C3` a non-success status; both get empty product lists while `A1`
is still enriched and all three rows are produced. -/
theorem enrich_failure_spec_witness :
    enrichTransactionsWithProducts
      (fun o => if o = ("A1") then some (⟨true, some [("Widget")]⟩ : NetResponse)
        else if o = ("B2") then none
        else some (⟨false, none⟩ : NetResponse))
      ([⟨("d1"), ("c"), ("A1"), ("1.00"), []⟩,
        ⟨("d2"), ("c"), ("B2"), ("2.00"), []⟩,
        ⟨("d3"), ("c"), ("C3"), ("3.00"), []⟩])
      = [⟨("d1"), ("c"), ("A1"), ("1.00"), [("Widget")]⟩,
         ⟨("d2"), ("c"), ("B2"), ("2.00"), []⟩,
         ⟨("d3"), ("c"), ("C3"), ("3.00"), []⟩]
    ∧ rowProducts
        (fun o => if o = ("A1") then some (⟨true, some [("Widget")]⟩ : NetResponse)
          else if o = ("B2") then none
          else some (⟨false, none⟩ : NetResponse)) ("B2") = [] := by
  have h := enrich_failure_spec
    (fun o => if o = ("A1") then some (⟨true, some [("Widget")]⟩ : NetResponse)
      else if o = ("B2") then none
      else some (⟨false, none⟩ : NetResponse))
    ([⟨("d1"), ("c"), ("A1"), ("1.00"), []⟩,
      ⟨("d2"), ("c"), ("B2"), ("2.00"), []⟩,
      ⟨("d3"), ("c"), ("C3"), ("3.00"), []⟩])
  constructor
  · rw [h.1]
    decide
  · exact h.2 ("B2") ⟨by decide, Or.inl (by decide)⟩

theorem processLinks_inv {E : Type} (extract : E → Option Transaction) (maxT : Nat)
    (links : List E) (records : List Transaction) (seen : List String)
    (h1 : (records.map txKey).Nodup) (h2 : ∀ r ∈ records, txKey r ∈ seen) :
    ((processLinks extract maxT links records seen).1.map txKey).Nodup
    ∧ ∀ r ∈ (processLinks extract maxT links records seen).1,
        txKey r ∈ (processLinks extract maxT links records seen).2 := by
  induction links generalizing records seen with
  | nil => exact ⟨h1, fun r hr => h2 r hr⟩
  | cons link links ih =>
    rw [processLinks]
    cases hx : extract link with
    | none => exact ih records seen h1 h2
    | some tx =>
      dsimp only
      by_cases hseen : txKey tx ∈ seen
      · rw [if_pos hseen]
        exact ih records seen h1 h2
      · rw [if_neg hseen]
        have h1b : ((records ++ [tx]).map txKey).Nodup := by
          rw [List.map_append]
          apply List.Nodup.append h1 (List.nodup_singleton _)
          intro a ha hb
          rcases List.mem_singleton.mp hb with hb2
          exact hseen (hb2 ▸ (by
            rcases List.mem_map.mp ha with ⟨r, hr, hk⟩
            exact hk ▸ h2 r hr))
        have h2b : ∀ r ∈ records ++ [tx], txKey r ∈ txKey tx :: seen := by
          intro r hr
          rcases List.mem_append.mp hr with h | h
          · exact List.mem_cons_of_mem _ (h2 r h)
          · rw [List.mem_singleton.mp h]
            exact List.mem_cons_self _ _
        by_cases hmax : maxT ≤ (records ++ [tx]).length
        · rw [if_pos hmax]
          exact ⟨h1b, h2b⟩
        · rw [if_neg hmax]
          exact ih _ _ h1b h2b

theorem collectLoop_step {E : Type} (extract : E → Option Transaction) (polls : Nat → List E)
    (maxT fuel i : Nat) (records : List Transaction) (seen : List String) (stall last : Nat)
    (hg : records.length < maxT ∧ stall < STALL_LIMIT) :
    collectLoop extract polls maxT (fuel + 1) i records seen stall last
      = (if maxT ≤ (processLinks extract maxT (polls i) records seen).1.length then
            ((processLinks extract maxT (polls i) records seen).1, CState.complete)
         else if STALL_LIMIT ≤ (if (processLinks extract maxT (polls i) records seen).1.length = last then stall + 1 else 0) then
            ((processLinks extract maxT (polls i) records seen).1, CState.stalled)
         else collectLoop extract polls maxT fuel (i + 1)
            (processLinks extract maxT (polls i) records seen).1
            (processLinks extract maxT (polls i) records seen).2
            (if (processLinks extract maxT (polls i) records seen).1.length = last then stall + 1 else 0)
            (if (processLinks extract maxT (polls i) records seen).1.length = last then last
             else (processLinks extract maxT (polls i) records seen).1.length)) := by
  rw [collectLoop, if_pos hg]

theorem collectLoop_guard_false {E : Type} (extract : E → Option Transaction)
    (polls : Nat → List E) (maxT fuel i : Nat) (records : List Transaction)
    (seen : List String) (stall last : Nat)
    (hg : ¬(records.length < maxT ∧ stall < STALL_LIMIT)) :
    collectLoop extract polls maxT (fuel + 1) i records seen stall last
      = (records, if maxT ≤ records.length then CState.complete else CState.stalled) := by
  rw [collectLoop, if_neg hg]

theorem collectLoop_nodup {E : Type} (extract : E → Option Transaction)
    (polls : Nat → List E) (maxT : Nat) :
    ∀ (fuel i : Nat) (records : List Transaction) (seen : List String) (stall last : Nat),
      (records.map txKey).Nodup → (∀ r ∈ records, txKey r ∈ seen) →
      ((collectLoop extract polls maxT fuel i records seen stall last).1.map txKey).Nodup := by
  intro fuel
  induction fuel with
  | zero => intro i records seen stall last h1 _; exact h1
  | succ fuel ih =>
    intro i records seen stall last h1 h2
    by_cases hg : records.length < maxT ∧ stall < STALL_LIMIT
    · rw [collectLoop_step extract polls maxT fuel i records seen stall last hg]
      have hp := processLinks_inv extract maxT (polls i) records seen h1 h2
      by_cases hc : maxT ≤ (processLinks extract maxT (polls i) records seen).1.length
      · rw [if_pos hc]
        exact hp.1
      · rw [if_neg hc]
        by_cases hs : STALL_LIMIT
            ≤ (if (processLinks extract maxT (polls i) records seen).1.length = last then stall + 1 else 0)
        · rw [if_pos hs]
          exact hp.1
        · rw [if_neg hs]
          exact ih (i + 1) _ _ _ _ hp.1 hp.2
    · rw [collectLoop_guard_false extract polls maxT fuel i records seen stall last hg]
      exact h1

/-- Claim C1: within one collection run the output sequence never contains
two records with an identical composite key
`(date, cardDetails, orderNumber, totalAmount)`, whatever entries the
document presents across iterations. -/
theorem collect_dedup_spec {E : Type} (extract : E → Option Transaction)
    (polls : Nat → List E) (maxTransactions fuel : Nat) :
    List.Pairwise (fun a b : Transaction =>
      ¬(a.date = b.date ∧ a.cardDetails = b.cardDetails
        ∧ a.orderNumber = b.orderNumber ∧ a.totalAmount = b.totalAmount))
      (collectTransactions extract polls maxTransactions fuel).1 := by
  have hn := collectLoop_nodup extract polls maxTransactions fuel 0 [] [] 0 0
    (by simp) (by simp)
  have hn2 : ((collectTransactions extract polls maxTransactions fuel).1.map txKey).Nodup := by
    have heq : (collectTransactions extract polls maxTransactions fuel).1
        = (collectLoop extract polls maxTransactions fuel 0 [] [] 0 0).1.take maxTransactions := rfl
    rw [heq, List.map_take]
    exact hn.sublist (List.take_sublist _ _)
  have hpw := List.pairwise_map.mp hn2
  exact hpw.imp (fun hne heq => hne (by
    rw [txKey, txKey, heq.1, heq.2.1, heq.2.2.1, heq.2.2.2]))

theorem processLinks_delta {E : Type} (extract : E → Option Transaction) (maxT : Nat)
    (links : List E) :
    ∀ (records : List Transaction) (seen : List String),
      ∃ d, (processLinks extract maxT links records seen).1 = records ++ d
        ∧ d.Sublist (links.filterMap extract) := by
  induction links with
  | nil =>
    intro records seen
    exact ⟨[], by simp [processLinks], by simp⟩
  | cons link links ih =>
    intro records seen
    rw [processLinks]
    cases hx : extract link with
    | none =>
      rcases ih records seen with ⟨d, h1, h2⟩
      refine ⟨d, h1, ?_⟩
      rw [List.filterMap_cons_none hx]
      exact h2
    | some tx =>
      dsimp only
      by_cases hseen : txKey tx ∈ seen
      · rw [if_pos hseen]
        rcases ih records seen with ⟨d, h1, h2⟩
        refine ⟨d, h1, ?_⟩
        rw [List.filterMap_cons_some hx]
        exact h2.cons tx
      · rw [if_neg hseen]
        by_cases hmax : maxT ≤ (records ++ [tx]).length
        · rw [if_pos hmax]
          refine ⟨[tx], rfl, ?_⟩
          rw [List.filterMap_cons_some hx]
          exact (List.nil_sublist _).cons₂ tx
        · rw [if_neg hmax]
          rcases ih (records ++ [tx]) (txKey tx :: seen) with ⟨d, h1, h2⟩
          refine ⟨tx :: d, ?_, ?_⟩
          · rw [h1, List.append_assoc, List.singleton_append]
          · rw [List.filterMap_cons_some hx]
            exact h2.cons₂ tx

theorem collectLoop_complete {E : Type} (extract : E → Option Transaction)
    (polls : Nat → List E) (maxT : Nat) :
    ∀ (fuel i : Nat) (records : List Transaction) (seen : List String) (stall last : Nat),
      (collectLoop extract polls maxT fuel i records seen stall last).2 = CState.complete →
      maxT ≤ (collectLoop extract polls maxT fuel i records seen stall last).1.length := by
  intro fuel
  induction fuel with
  | zero =>
    intro i records seen stall last h
    simp [collectLoop] at h
  | succ fuel ih =>
    intro i records seen stall last h
    by_cases hg : records.length < maxT ∧ stall < STALL_LIMIT
    · rw [collectLoop_step extract polls maxT fuel i records seen stall last hg] at h ⊢
      by_cases hc : maxT ≤ (processLinks extract maxT (polls i) records seen).1.length
      · rw [if_pos hc]
        exact hc
      · rw [if_neg hc] at h ⊢
        by_cases hs : STALL_LIMIT
            ≤ (if (processLinks extract maxT (polls i) records seen).1.length = last then stall + 1 else 0)
        · rw [if_pos hs] at h
          simp at h
        · rw [if_neg hs] at h ⊢
          exact ih (i + 1) _ _ _ _ h
    · rw [collectLoop_guard_false extract polls maxT fuel i records seen stall last hg] at h ⊢
      by_cases hc : maxT ≤ records.length
      · exact hc
      · rw [if_neg hc] at h
        simp at h

theorem collectLoop_sublist {E : Type} (extract : E → Option Transaction)
    (polls : Nat → List E) (maxT : Nat) :
    ∀ (fuel i : Nat) (records : List Transaction) (seen : List String) (stall last : Nat),
      ∃ d, (collectLoop extract polls maxT fuel i records seen stall last).1 = records ++ d
        ∧ d.Sublist
            (((List.range' i fuel).map (fun j => (polls j).filterMap extract)).flatten) := by
  intro fuel
  induction fuel with
  | zero =>
    intro i records seen stall last
    exact ⟨[], by simp [collectLoop], by simp⟩
  | succ fuel ih =>
    intro i records seen stall last
    have hflat : ((List.range' i (fuel + 1)).map (fun j => (polls j).filterMap extract)).flatten
        = (polls i).filterMap extract
          ++ ((List.range' (i + 1) fuel).map (fun j => (polls j).filterMap extract)).flatten := by
      rw [List.range'_succ, List.map_cons, List.flatten_cons]
    by_cases hg : records.length < maxT ∧ stall < STALL_LIMIT
    · rw [collectLoop_step extract polls maxT fuel i records seen stall last hg, hflat]
      rcases processLinks_delta extract maxT (polls i) records seen with ⟨d1, hd1, hd2⟩
      by_cases hc : maxT ≤ (processLinks extract maxT (polls i) records seen).1.length
      · rw [if_pos hc]
        exact ⟨d1, hd1, hd2.trans (List.sublist_append_left _ _)⟩
      · rw [if_neg hc]
        by_cases hs : STALL_LIMIT
            ≤ (if (processLinks extract maxT (polls i) records seen).1.length = last then stall + 1 else 0)
        · rw [if_pos hs]
          exact ⟨d1, hd1, hd2.trans (List.sublist_append_left _ _)⟩
        · rw [if_neg hs]
          rcases ih (i + 1) (processLinks extract maxT (polls i) records seen).1
            (processLinks extract maxT (polls i) records seen).2
            (if (processLinks extract maxT (polls i) records seen).1.length = last then stall + 1 else 0)
            (if (processLinks extract maxT (polls i) records seen).1.length = last then last
             else (processLinks extract maxT (polls i) records seen).1.length) with ⟨d2, h1, h2⟩
          refine ⟨d1 ++ d2, ?_, hd2.append h2⟩
          rw [h1, hd1, List.append_assoc]
    · rw [collectLoop_guard_false extract polls maxT fuel i records seen stall last hg]
      exact ⟨[], by simp, List.nil_sublist _⟩

/-- Claim C9: one collector run returns at most `maxTransactions` records,
exactly `maxTransactions` of them whenever it stops in the `Complete`
state, and the output is a subsequence — in document-encounter order — of
the stream of records the document presented across the iterations. -/
theorem collect_output_spec {E : Type} (extract : E → Option Transaction)
    (polls : Nat → List E) (maxTransactions fuel : Nat) :
    (collectTransactions extract polls maxTransactions fuel).1.length ≤ maxTransactions
    ∧ ((collectTransactions extract polls maxTransactions fuel).2 = CState.complete →
        (collectTransactions extract polls maxTransactions fuel).1.length = maxTransactions)
    ∧ (collectTransactions extract polls maxTransactions fuel).1.Sublist
        (((List.range' 0 fuel).map (fun j => (polls j).filterMap extract)).flatten) := by
  have hout : (collectTransactions extract polls maxTransactions fuel).1
      = (collectLoop extract polls maxTransactions fuel 0 [] [] 0 0).1.take maxTransactions := rfl
  have hst : (collectTransactions extract polls maxTransactions fuel).2
      = (collectLoop extract polls maxTransactions fuel 0 [] [] 0 0).2 := rfl
  refine ⟨?_, ?_, ?_⟩
  · rw [hout, List.length_take]
    exact min_le_left _ _
  · intro hc
    rw [hst] at hc
    have hlow := collectLoop_complete extract polls maxTransactions fuel 0 [] [] 0 0 hc
    rw [hout, List.length_take]
    omega
  · rcases collectLoop_sublist extract polls maxTransactions fuel 0 [] [] 0 0 with ⟨d, h1, h2⟩
    rw [hout]
    refine (List.take_sublist _ _).trans ?_
    rw [h1, List.nil_append]
    exact h2

/-- Concrete instance of claim C9: a document constantly showing two
records with `maxTransactions = 1` stops in `Complete` with exactly one
record, in encounter order. -/
theorem collect_output_spec_witness :
    (collectTransactions
      (fun n : Nat => some (⟨if n = 0 then ("d0") else ("d1"), (""), (""), (""), []⟩ : Transaction))
      (fun _ => [0, 1]) 1 1).1.length = 1
    ∧ (collectTransactions
      (fun n : Nat => some (⟨if n = 0 then ("d0") else ("d1"), (""), (""), (""), []⟩ : Transaction))
      (fun _ => [0, 1]) 1 1).1.Sublist
        (((List.range' 0 1).map (fun j =>
          ((fun _ => [0, 1]) j).filterMap
            (fun n : Nat => some (⟨if n = 0 then ("d0") else ("d1"), (""), (""), (""), []⟩ : Transaction)))).flatten) := by
  have h := collect_output_spec
    (fun n : Nat => some (⟨if n = 0 then ("d0") else ("d1"), (""), (""), (""), []⟩ : Transaction))
    (fun _ => [0, 1]) 1 1
  exact ⟨h.2.1 (by decide), h.2.2⟩

theorem processLinks_seen_mono {E : Type} (extract : E → Option Transaction) (maxT : Nat)
    (links : List E) :
    ∀ (records : List Transaction) (seen : List String),
      seen ⊆ (processLinks extract maxT links records seen).2 := by
  induction links with
  | nil => intro records seen; exact List.Subset.refl seen
  | cons link links ih =>
    intro records seen
    rw [processLinks]
    cases hx : extract link with
    | none => exact ih records seen
    | some tx =>
      dsimp only
      by_cases hseen : txKey tx ∈ seen
      · rw [if_pos hseen]
        exact ih records seen
      · rw [if_neg hseen]
        by_cases hmax : maxT ≤ (records ++ [tx]).length
        · rw [if_pos hmax]
          exact List.subset_cons_self _ _
        · rw [if_neg hmax]
          exact (List.subset_cons_self _ _).trans (ih _ _)

theorem processLinks_saturates {E : Type} (extract : E → Option Transaction) (maxT : Nat)
    (links : List E) :
    ∀ (records : List Transaction) (seen : List String),
      (processLinks extract maxT links records seen).1.length < maxT →
      ∀ e ∈ links, ∀ tx, extract e = some tx →
        txKey tx ∈ (processLinks extract maxT links records seen).2 := by
  induction links with
  | nil =>
    intro records seen _ e he
    exact absurd he (List.not_mem_nil e)
  | cons link links ih =>
    intro records seen hlen e he tx hx2
    rw [processLinks] at hlen ⊢
    cases hx : extract link with
    | none =>
      rw [hx] at hlen
      rcases List.mem_cons.mp he with h | h
      · rw [h, hx] at hx2
        exact absurd hx2 (by simp)
      · exact ih records seen hlen e h tx hx2
    | some tx0 =>
      rw [hx] at hlen
      dsimp only at hlen ⊢
      by_cases hseen : txKey tx0 ∈ seen
      · rw [if_pos hseen] at hlen ⊢
        rcases List.mem_cons.mp he with h | h
        · rw [h, hx] at hx2
          have : tx = tx0 := by injection hx2 with h2; exact h2.symm
          rw [this]
          exact processLinks_seen_mono extract maxT links records seen hseen
        · exact ih records seen hlen e h tx hx2
      · rw [if_neg hseen] at hlen ⊢
        by_cases hmax : maxT ≤ (records ++ [tx0]).length
        · rw [if_pos hmax] at hlen
          dsimp at hlen
          exfalso
          simp only [List.length_append, List.length_singleton] at hmax hlen
          omega
        · rw [if_neg hmax] at hlen ⊢
          rcases List.mem_cons.mp he with h | h
          · rw [h, hx] at hx2
            have : tx = tx0 := by injection hx2 with h2; exact h2.symm
            rw [this]
            exact processLinks_seen_mono extract maxT links _ _ (List.mem_cons_self _ _)
          · exact ih _ _ hlen e h tx hx2

theorem processLinks_inert {E : Type} (extract : E → Option Transaction) (maxT : Nat)
    (links : List E) :
    ∀ (records : List Transaction) (seen : List String),
      (∀ e ∈ links, ∀ tx, extract e = some tx → txKey tx ∈ seen) →
      processLinks extract maxT links records seen = (records, seen) := by
  induction links with
  | nil => intro records seen _; rfl
  | cons link links ih =>
    intro records seen h
    rw [processLinks]
    cases hx : extract link with
    | none =>
      exact ih records seen fun e he tx hx2 => h e (List.mem_cons_of_mem link he) tx hx2
    | some tx =>
      dsimp only
      rw [if_pos (h link (List.mem_cons_self link links) tx hx)]
      exact ih records seen fun e he tx2 hx2 => h e (List.mem_cons_of_mem link he) tx2 hx2

theorem collectLoop_stall_run {E : Type} (extract : E → Option Transaction) (es : List E)
    (polls : Nat → List E) (hpoll : ∀ j, polls j = es) (maxT : Nat)
    (r0 : List Transaction) (s0 : List String)
    (hsat : ∀ e ∈ es, ∀ tx, extract e = some tx → txKey tx ∈ s0)
    (hlen : r0.length < maxT) :
    ∀ (fuel k i : Nat), k < STALL_LIMIT → STALL_LIMIT - k ≤ fuel →
      collectLoop extract polls maxT fuel i r0 s0 k r0.length = (r0, CState.stalled) := by
  intro fuel
  induction fuel with
  | zero =>
    intro k i hk hf
    exfalso
    have h8 : STALL_LIMIT = 8 := rfl
    rw [h8] at hk hf
    omega
  | succ fuel ih =>
    intro k i hk hf
    rw [collectLoop_step extract polls maxT fuel i r0 s0 k r0.length ⟨hlen, hk⟩]
    have hin : processLinks extract maxT (polls i) r0 s0 = (r0, s0) := by
      rw [hpoll i]
      exact processLinks_inert extract maxT es r0 s0 hsat
    rw [hin]
    dsimp only
    rw [if_pos (rfl : r0.length = r0.length)]
    rw [if_pos (rfl : r0.length = r0.length)]
    rw [if_neg (not_le.mpr hlen)]
    by_cases hk8 : STALL_LIMIT ≤ k + 1
    · rw [if_pos hk8]
    · rw [if_neg hk8]
      have h8 : STALL_LIMIT = 8 := rfl
      exact ih (k + 1) (i + 1) (by rw [h8] at hk8 ⊢; omega) (by rw [h8] at hf ⊢; omega)

/-- Claim C2, amended: for a document whose rendered entry list is constant
across polls and yields fewer than `maxTransactions` accepted records, the
collector terminates in the `Stalled` state within `STALL_LIMIT + 1`
iterations — one iteration that absorbs the initially rendered entries
followed by `STALL_LIMIT` consecutive no-growth iterations — and in
particular never loops indefinitely; its output is exactly the records
extracted from the first poll.  (The claim's bound of `STALL_LIMIT`
iterations fails when the first poll yields records, and a constant
document yielding `maxTransactions` or more records terminates in
`Complete` instead; see the counterexample.) -/
theorem collect_stall_spec {E : Type} (extract : E → Option Transaction) (es : List E)
    (maxTransactions : Nat)
    (h : (processLinks extract maxTransactions es [] []).1.length < maxTransactions) :
    collectTransactions extract (fun _ => es) maxTransactions (STALL_LIMIT + 1)
      = ((processLinks extract maxTransactions es [] []).1, CState.stalled) := by
  have hsat := processLinks_saturates extract maxTransactions es [] [] h
  have hmax0 : 0 < maxTransactions := Nat.lt_of_le_of_lt (Nat.zero_le _) h
  have hloop : collectLoop extract (fun _ => es) maxTransactions (STALL_LIMIT + 1) 0 [] [] 0 0
      = ((processLinks extract maxTransactions es [] []).1, CState.stalled) := by
    rw [collectLoop_step extract (fun _ => es) maxTransactions STALL_LIMIT 0 [] [] 0 0
      ⟨by simpa using hmax0, by decide⟩]
    rw [if_neg (not_le.mpr h)]
    by_cases h0 : (processLinks extract maxTransactions es [] []).1.length = 0
    · rw [if_pos h0]
      rw [if_neg (by decide : ¬ STALL_LIMIT ≤ 0 + 1)]
      rw [if_pos h0]
      have hrun := collectLoop_stall_run extract es (fun _ => es) (fun _ => rfl)
        maxTransactions (processLinks extract maxTransactions es [] []).1
        (processLinks extract maxTransactions es [] []).2 hsat h
        STALL_LIMIT (0 + 1) 1 (by decide) (by decide)
      rw [h0] at hrun
      exact hrun
    · rw [if_neg h0]
      rw [if_neg (by decide : ¬ STALL_LIMIT ≤ 0)]
      rw [if_neg h0]
      exact collectLoop_stall_run extract es (fun _ => es) (fun _ => rfl)
        maxTransactions (processLinks extract maxTransactions es [] []).1
        (processLinks extract maxTransactions es [] []).2 hsat h
        STALL_LIMIT 0 1 (by decide) (by decide)
  have hREC : collectTransactions extract (fun _ => es) maxTransactions (STALL_LIMIT + 1)
      = ((collectLoop extract (fun _ => es) maxTransactions (STALL_LIMIT + 1) 0 [] [] 0 0).1.take maxTransactions,
         (collectLoop extract (fun _ => es) maxTransactions (STALL_LIMIT + 1) 0 [] [] 0 0).2) := rfl
  rw [hREC, hloop]
  dsimp only
  rw [List.take_of_length_le (le_of_lt h)]

/-- Concrete instance of the amended claim C2: a constant one-entry
document stalls out with that single record after `STALL_LIMIT + 1`
iterations. -/
theorem collect_stall_spec_witness :
    collectTransactions
      (fun _ : Unit => some (⟨("2024-01-05"), ("Visa1234"), ("A1"), ("10.00"), []⟩ : Transaction))
      (fun _ => [()]) 200 (STALL_LIMIT + 1)
      = ([⟨("2024-01-05"), ("Visa1234"), ("A1"), ("10.00"), []⟩], CState.stalled) := by
  have h := collect_stall_spec
    (fun _ : Unit => some (⟨("2024-01-05"), ("Visa1234"), ("A1"), ("10.00"), []⟩ : Transaction))
    [()] 200 (by decide)
  rw [h]
  rfl

/-- Counterexample to claim C2 as stated: a document constantly rendering
one extractable entry — its rendered entry count never grows — still has
the collector loop running after `STALL_LIMIT` (8) iterations (`outOfFuel`
records that the loop guard still held when the iteration budget ran out);
the run only reaches `Stalled` at iteration `STALL_LIMIT + 1`. -/
theorem collect_stall_counterexample :
    (collectTransactions
      (fun _ : Unit => some (⟨("2024-01-05"), ("Visa1234"), ("A1"), ("10.00"), []⟩ : Transaction))
      (fun _ => [()]) 200 STALL_LIMIT).2 = CState.outOfFuel
    ∧ (collectTransactions
      (fun _ : Unit => some (⟨("2024-01-05"), ("Visa1234"), ("A1"), ("10.00"), []⟩ : Transaction))
      (fun _ => [()]) 200 (STALL_LIMIT + 1)).2 = CState.stalled := by
  exact ⟨rfl, rfl⟩

theorem takeWhile_all_append {p : Char → Bool} :
    ∀ (xs : List Char), (∀ c ∈ xs, p c = true) →
      ∀ (ys : List Char), (xs ++ ys).takeWhile p = xs ++ ys.takeWhile p := by
  intro xs hxs
  induction xs with
  | nil => intro ys; rfl
  | cons x xs ih =>
    intro ys
    have hx : p x = true := hxs x (List.mem_cons_self x xs)
    rw [List.cons_append, List.takeWhile_cons, if_pos hx,
      ih (fun c hc => hxs c (List.mem_cons_of_mem x hc)) ys, List.cons_append]

theorem dropWhile_all_append {p : Char → Bool} :
    ∀ (xs : List Char), (∀ c ∈ xs, p c = true) →
      ∀ (ys : List Char), (xs ++ ys).dropWhile p = ys.dropWhile p := by
  intro xs hxs
  induction xs with
  | nil => intro ys; rfl
  | cons x xs ih =>
    intro ys
    have hx : p x = true := hxs x (List.mem_cons_self x xs)
    rw [List.cons_append, List.dropWhile_cons, if_pos hx,
      ih (fun c hc => hxs c (List.mem_cons_of_mem x hc)) ys]

theorem takeWhile_cons_neg {p : Char → Bool} {y : Char} (ys : List Char)
    (hy : p y = false) : (y :: ys).takeWhile p = [] := by
  rw [List.takeWhile_cons, if_neg (by simp [hy])]

theorem dropWhile_cons_neg {p : Char → Bool} {y : Char} (ys : List Char)
    (hy : p y = false) : (y :: ys).dropWhile p = y :: ys := by
  rw [List.dropWhile_cons, if_neg (by simp [hy])]

theorem digit_not_ws {c : Char} (h : isDigitCh c = true) : jsWs c = false := by
  rcases hw : jsWs c with _ | _
  · rfl
  · exfalso
    simp only [jsWs, Bool.or_eq_true, decide_eq_true_eq] at hw
    rcases hw with ((((h1 | h1) | h1) | h1) | h1) | h1 <;> (subst h1; simp [isDigitCh] at h)

theorem alpha_not_ws {c : Char} (h : isAlphaCh c = true) : jsWs c = false := by
  rcases hw : jsWs c with _ | _
  · rfl
  · exfalso
    simp only [jsWs, Bool.or_eq_true, decide_eq_true_eq] at hw
    rcases hw with ((((h1 | h1) | h1) | h1) | h1) | h1 <;> (subst h1; simp [isAlphaCh] at h)

theorem matchDate_shape (d : List Char) (m1 m2 m3 y1 y2 y3 y4 : Char)
    (hd1 : 1 ≤ d.length) (hd2 : d.length ≤ 2) (hd : ∀ c ∈ d, isDigitCh c = true)
    (hm1 : isAlphaCh m1 = true) (hm2 : isAlphaCh m2 = true) (hm3 : isAlphaCh m3 = true)
    (hy1 : isDigitCh y1 = true) (hy2 : isDigitCh y2 = true) (hy3 : isDigitCh y3 = true)
    (hy4 : isDigitCh y4 = true) :
    matchDate (d ++ ' ' :: ([m1, m2, m3] ++ ' ' :: [y1, y2, y3, y4]))
      = some (d, [m1, m2, m3], [y1, y2, y3, y4]) := by
  have e1 : (d ++ ' ' :: ([m1, m2, m3] ++ ' ' :: [y1, y2, y3, y4])).takeWhile isDigitCh = d := by
    rw [takeWhile_all_append d hd, takeWhile_cons_neg _ (by decide), List.append_nil]
  have e2 : (d ++ ' ' :: ([m1, m2, m3] ++ ' ' :: [y1, y2, y3, y4])).dropWhile isDigitCh
      = ' ' :: ([m1, m2, m3] ++ ' ' :: [y1, y2, y3, y4]) := by
    rw [dropWhile_all_append d hd, dropWhile_cons_neg _ (by decide)]
  have e3 : (' ' :: ([m1, m2, m3] ++ ' ' :: [y1, y2, y3, y4])).takeWhile jsWs = [' '] := by
    rw [List.takeWhile_cons, if_pos (by decide),
      show ([m1, m2, m3] ++ ' ' :: [y1, y2, y3, y4])
        = m1 :: ([m2, m3] ++ ' ' :: [y1, y2, y3, y4]) from rfl,
      takeWhile_cons_neg _ (alpha_not_ws hm1)]
  have e4 : (' ' :: ([m1, m2, m3] ++ ' ' :: [y1, y2, y3, y4])).dropWhile jsWs
      = m1 :: m2 :: m3 :: (' ' :: [y1, y2, y3, y4]) := by
    rw [List.dropWhile_cons, if_pos (by decide),
      show ([m1, m2, m3] ++ ' ' :: [y1, y2, y3, y4])
        = m1 :: ([m2, m3] ++ ' ' :: [y1, y2, y3, y4]) from rfl,
      dropWhile_cons_neg _ (alpha_not_ws hm1)]
    rfl
  have e5 : ((' ' :: [y1, y2, y3, y4]).takeWhile jsWs) = [' '] := by
    rw [List.takeWhile_cons, if_pos (by decide), takeWhile_cons_neg _ (digit_not_ws hy1)]
  have e6 : ((' ' :: [y1, y2, y3, y4]).dropWhile jsWs) = [y1, y2, y3, y4] := by
    rw [List.dropWhile_cons, if_pos (by decide), dropWhile_cons_neg _ (digit_not_ws hy1)]
  rw [matchDate, e1, e2, e3, e4]
  rw [if_neg (by omega : ¬(d.length = 0 ∨ 2 < d.length))]
  rw [if_neg (by decide : ¬([' '] : List Char).length = 0)]
  dsimp only
  rw [if_pos (by rw [hm1, hm2, hm3]; rfl), e5, e6]
  rw [if_neg (by decide : ¬([' '] : List Char).length = 0)]
  dsimp only
  rw [if_pos (by rw [hy1, hy2, hy3, hy4]; rfl)]

theorem matchDate_complete {cs ds ms ys : List Char}
    (h : matchDate cs = some (ds, ms, ys)) :
    ∃ w1 w2 : List Char,
      cs = ds ++ w1 ++ (ms ++ w2 ++ ys)
      ∧ 1 ≤ ds.length ∧ ds.length ≤ 2 ∧ (∀ c ∈ ds, isDigitCh c = true)
      ∧ ms.length = 3 ∧ (∀ c ∈ ms, isAlphaCh c = true)
      ∧ ys.length = 4 ∧ (∀ c ∈ ys, isDigitCh c = true)
      ∧ 1 ≤ w1.length ∧ (∀ c ∈ w1, jsWs c = true)
      ∧ 1 ≤ w2.length ∧ (∀ c ∈ w2, jsWs c = true) := by
  rw [matchDate] at h
  by_cases h1 : (cs.takeWhile isDigitCh).length = 0 ∨ 2 < (cs.takeWhile isDigitCh).length
  · rw [if_pos h1] at h
    simp at h
  · rw [if_neg h1] at h
    by_cases h2 : ((cs.dropWhile isDigitCh).takeWhile jsWs).length = 0
    · rw [if_pos h2] at h
      simp at h
    · rw [if_neg h2] at h
      rcases hr2 : (cs.dropWhile isDigitCh).dropWhile jsWs with _ | ⟨a1, _ | ⟨a2, _ | ⟨a3, r3⟩⟩⟩
      · rw [hr2] at h; simp at h
      · rw [hr2] at h; simp at h
      · rw [hr2] at h; simp at h
      · rw [hr2] at h
        dsimp only at h
        by_cases ha : (isAlphaCh a1 && isAlphaCh a2 && isAlphaCh a3) = true
        · rw [if_pos ha] at h
          by_cases h3 : (r3.takeWhile jsWs).length = 0
          · rw [if_pos h3] at h
            simp at h
          · rw [if_neg h3] at h
            rcases hr4 : r3.dropWhile jsWs
              with _ | ⟨b1, _ | ⟨b2, _ | ⟨b3, _ | ⟨b4, _ | ⟨b5, u5⟩⟩⟩⟩⟩
            · rw [hr4] at h; simp at h
            · rw [hr4] at h; simp at h
            · rw [hr4] at h; simp at h
            · rw [hr4] at h; simp at h
            · rw [hr4] at h
              dsimp only at h
              by_cases hdig : (isDigitCh b1 && isDigitCh b2 && isDigitCh b3 && isDigitCh b4) = true
              · rw [if_pos hdig] at h
                simp only [Option.some.injEq, Prod.mk.injEq] at h
                obtain ⟨hds, hms, hys⟩ := h
                subst hds
                subst hms
                subst hys
                simp only [Bool.and_eq_true] at ha hdig
                refine ⟨(cs.dropWhile isDigitCh).takeWhile jsWs, r3.takeWhile jsWs,
                  ?_, ?_, ?_, ?_, rfl, ?_, rfl, ?_, ?_, ?_, ?_, ?_⟩
                · have ecs : cs = cs.takeWhile isDigitCh ++ cs.dropWhile isDigitCh :=
                    (List.takeWhile_append_dropWhile isDigitCh cs).symm
                  have e2 : cs.dropWhile isDigitCh
                      = (cs.dropWhile isDigitCh).takeWhile jsWs ++ (a1 :: a2 :: a3 :: r3) := by
                    conv_lhs => rw [← List.takeWhile_append_dropWhile jsWs (cs.dropWhile isDigitCh)]
                    rw [hr2]
                  have e3 : r3 = r3.takeWhile jsWs ++ [b1, b2, b3, b4] := by
                    conv_lhs => rw [← List.takeWhile_append_dropWhile jsWs r3]
                    rw [hr4]
                  conv_lhs => rw [ecs, e2, e3]
                  simp [List.append_assoc]
                · omega
                · omega
                · intro c hc
                  exact List.mem_takeWhile_imp hc
                · intro c hc
                  simp only [List.mem_cons, List.not_mem_nil, or_false] at hc
                  rcases hc with rfl | rfl | rfl
                  · exact ha.1.1
                  · exact ha.1.2
                  · exact ha.2
                · intro c hc
                  simp only [List.mem_cons, List.not_mem_nil, or_false] at hc
                  rcases hc with rfl | rfl | rfl | rfl
                  · exact hdig.1.1.1
                  · exact hdig.1.1.2
                  · exact hdig.1.2
                  · exact hdig.2
                · omega
                · intro c hc
                  exact List.mem_takeWhile_imp hc
                · omega
                · intro c hc
                  exact List.mem_takeWhile_imp hc
              · rw [if_neg hdig] at h
                simp at h
            · rw [hr4] at h
              simp at h
        · rw [if_neg ha] at h
          simp at h

theorem noWsRun_tail {a : Char} {l : List Char} (h : noWsRun (a :: l) = true) :
    noWsRun l = true := by
  cases l with
  | nil => rfl
  | cons b r =>
    simp only [noWsRun, Bool.and_eq_true] at h
    exact h.2

theorem noWsRun_pair {a b : Char} {l : List Char} (h : noWsRun (a :: b :: l) = true) :
    ¬(jsWs a = true ∧ jsWs b = true) := by
  rintro ⟨ha, hb⟩
  simp only [noWsRun, Bool.and_eq_true] at h
  rw [ha, hb] at h
  simp at h

theorem noWsRun_cons_of {a : Char} {l : List Char} (hl : noWsRun l = true)
    (h : jsWs a = false ∨ ∀ c, l.head? = some c → jsWs c = false) :
    noWsRun (a :: l) = true := by
  cases l with
  | nil => rfl
  | cons b r =>
    simp only [noWsRun, Bool.and_eq_true]
    refine ⟨?_, hl⟩
    rcases h with h | h
    · simp [h]
    · simp [h b rfl]

theorem noWsRun_append_left : ∀ {l1 l2 : List Char}, noWsRun (l1 ++ l2) = true →
    noWsRun l1 = true := by
  intro l1
  induction l1 with
  | nil => intro l2 _; rfl
  | cons a t ih =>
    intro l2 h
    cases t with
    | nil => rfl
    | cons b r =>
      rw [List.cons_append] at h
      have h2 : noWsRun ((b :: r) ++ l2) = true := noWsRun_tail h
      simp only [noWsRun, Bool.and_eq_true]
      refine ⟨?_, ih h2⟩
      rw [List.cons_append] at h
      simp only [noWsRun, Bool.and_eq_true] at h
      exact h.1

theorem noWsRun_append_right : ∀ {l1 l2 : List Char}, noWsRun (l1 ++ l2) = true →
    noWsRun l2 = true := by
  intro l1
  induction l1 with
  | nil => intro l2 h; exact h
  | cons a t ih =>
    intro l2 h
    rw [List.cons_append] at h
    exact ih (noWsRun_tail h)

theorem collapse_ws_only_space : ∀ (cs : List Char) (b : Bool),
    ∀ c ∈ collapseWsAux b cs, jsWs c = true → c = ' ' := by
  intro cs
  induction cs with
  | nil => intro b c hc; exact absurd hc (List.not_mem_nil c)
  | cons a t ih =>
    intro b c hc hw
    rw [collapseWsAux] at hc
    by_cases ha : jsWs a = true
    · rw [if_pos ha] at hc
      cases b with
      | true => exact ih true c hc hw
      | false =>
        rcases List.mem_cons.mp hc with h | h
        · exact h
        · exact ih true c h hw
    · rw [if_neg ha] at hc
      rcases List.mem_cons.mp hc with h | h
      · exact absurd (h ▸ hw) ha
      · exact ih false c h hw

theorem collapse_noWsRun : ∀ cs : List Char,
    (noWsRun (collapseWsAux true cs) = true
      ∧ ∀ c, (collapseWsAux true cs).head? = some c → jsWs c = false)
    ∧ noWsRun (collapseWsAux false cs) = true := by
  intro cs
  induction cs with
  | nil => exact ⟨⟨rfl, fun c hc => by simp [collapseWsAux] at hc⟩, rfl⟩
  | cons a t ih =>
    constructor
    · constructor
      · rw [collapseWsAux]
        by_cases ha : jsWs a = true
        · rw [if_pos ha]
          exact ih.1.1
        · rw [if_neg ha]
          exact noWsRun_cons_of ih.2 (Or.inl (by simpa using ha))
      · intro c hc
        rw [collapseWsAux] at hc
        by_cases ha : jsWs a = true
        · rw [if_pos ha] at hc
          exact ih.1.2 c hc
        · rw [if_neg ha] at hc
          simp only [List.head?_cons, Option.some.injEq] at hc
          rw [← hc]
          simpa using ha
    · rw [collapseWsAux]
      by_cases ha : jsWs a = true
      · rw [if_pos ha]
        exact noWsRun_cons_of ih.1.1 (Or.inr ih.1.2)
      · rw [if_neg ha]
        exact noWsRun_cons_of ih.2 (Or.inl (by simpa using ha))

theorem noWsRun_dropWhile {p : Char → Bool} : ∀ l : List Char, noWsRun l = true →
    noWsRun (l.dropWhile p) = true := by
  intro l
  induction l with
  | nil => intro h; exact h
  | cons a t ih =>
    intro h
    rw [List.dropWhile_cons]
    by_cases ha : p a = true
    · rw [if_pos (by simp [ha])]
      exact ih (noWsRun_tail h)
    · rw [if_neg (by simp [Bool.not_eq_true] at ha; simp [ha])]
      exact h

theorem mem_dropWhile_imp {p : Char → Bool} : ∀ l : List Char, ∀ c ∈ l.dropWhile p, c ∈ l := by
  intro l
  induction l with
  | nil => intro c hc; exact hc
  | cons a t ih =>
    intro c hc
    rw [List.dropWhile_cons] at hc
    by_cases ha : p a = true
    · rw [if_pos (by simp [ha])] at hc
      exact List.mem_cons_of_mem a (ih c hc)
    · rw [if_neg (by simp [Bool.not_eq_true] at ha; simp [ha])] at hc
      exact hc

theorem trimEndWs_prefix : ∀ l : List Char, ∃ s, l = trimEndWs l ++ s := by
  intro l
  induction l with
  | nil => exact ⟨[], rfl⟩
  | cons c t ih =>
    rw [trimEndWs]
    cases htr : trimEndWs t with
    | nil =>
      by_cases hc : jsWs c = true
      · rw [if_pos hc]
        exact ⟨c :: t, rfl⟩
      · rw [if_neg hc]
        obtain ⟨s, hs⟩ := ih
        rw [htr] at hs
        exact ⟨t, by rw [List.nil_append] at hs; rw [List.singleton_append]⟩
    | cons d r =>
      obtain ⟨s, hs⟩ := ih
      rw [htr] at hs
      exact ⟨s, by rw [List.cons_append, ← hs]⟩

theorem normalizeSpace_props (raw : String) :
    noWsRun (normalizeSpace raw).data = true
    ∧ ∀ c ∈ (normalizeSpace raw).data, jsWs c = true → c = ' ' := by
  have hdata : (normalizeSpace raw).data
      = trimEndWs ((collapseWsAux false raw.data).dropWhile jsWs) := rfl
  obtain ⟨s, hs⟩ := trimEndWs_prefix ((collapseWsAux false raw.data).dropWhile jsWs)
  constructor
  · rw [hdata]
    apply @noWsRun_append_left _ s
    rw [← hs]
    exact noWsRun_dropWhile _ (collapse_noWsRun raw.data).2
  · intro c hc hw
    rw [hdata] at hc
    have h1 : c ∈ (collapseWsAux false raw.data).dropWhile jsWs := by
      rw [hs]
      exact List.mem_append.mpr (Or.inl hc)
    exact collapse_ws_only_space raw.data false c (mem_dropWhile_imp _ c h1) hw

/-- Claim C6: for every input whose normalized form is
`<1-2 digit day> <3-letter month> <4-digit year>`, `parseDateToISO`
returns `YYYY-MM-DD` with the day zero-padded when the month abbreviation
is a `MONTHS` key and the empty string otherwise; and whenever it returns
a non-empty string the input had that shape (so every input of any other
shape yields the empty string).  Inputs literally of the shape satisfy
the normalized-form hypothesis because `normalizeSpace` fixes them. -/
theorem parseDateToISO_spec (raw : String) :
    (∀ (d m y : List Char),
      1 ≤ d.length → d.length ≤ 2 → (∀ c ∈ d, isDigitCh c = true) →
      m.length = 3 → (∀ c ∈ m, isAlphaCh c = true) →
      y.length = 4 → (∀ c ∈ y, isDigitCh c = true) →
      (normalizeSpace raw).data = d ++ ' ' :: (m ++ ' ' :: y) →
      parseDateToISO raw
        = (match MONTHS.lookup (String.mk m) with
           | some mm =>
             String.mk y ++ ("-") ++ mm ++ ("-") ++ padStart2 (toString (natOfDigits d))
           | none => ""))
    ∧ (parseDateToISO raw ≠ "" → DateShape raw) := by
  constructor
  · intro d m y hd1 hd2 hd hm3 hm hy4 hy heq
    obtain ⟨m1, m2, m3, rfl⟩ := List.length_eq_three.mp hm3
    obtain ⟨y1, y2, y3, y4, rfl⟩ : ∃ a b c e, y = [a, b, c, e] := by
      cases y with
      | nil => simp at hy4
      | cons a t =>
        cases t with
        | nil => simp at hy4
        | cons b t2 =>
          cases t2 with
          | nil => simp at hy4
          | cons c t3 =>
            cases t3 with
            | nil => simp at hy4
            | cons e t4 =>
              cases t4 with
              | nil => exact ⟨a, b, c, e, rfl⟩
              | cons f t5 => simp at hy4
    rw [parseDateToISO, heq,
      matchDate_shape d m1 m2 m3 y1 y2 y3 y4 hd1 hd2 hd
        (hm m1 (by simp)) (hm m2 (by simp)) (hm m3 (by simp))
        (hy y1 (by simp)) (hy y2 (by simp)) (hy y3 (by simp)) (hy y4 (by simp))]
    dsimp only
    cases List.lookup (String.mk [m1, m2, m3]) MONTHS <;> rfl
  · intro hne
    rw [parseDateToISO] at hne
    rcases hmd : matchDate (normalizeSpace raw).data with _ | ⟨ds, ms, ys⟩
    · rw [hmd] at hne
      simp at hne
    · obtain ⟨w1, w2, hcs, hds1, hds2, hdsd, hms3, hmsa, hys4, hysd,
        hw1len, hw1ws, hw2len, hw2ws⟩ := matchDate_complete hmd
      have hprops := normalizeSpace_props raw
      have hnorm1 : noWsRun (ds ++ (w1 ++ (ms ++ (w2 ++ ys)))) = true := by
        have h0 := hprops.1
        rw [hcs] at h0
        simpa [List.append_assoc] using h0
      have hw1e : w1 = [' '] := by
        rcases w1 with _ | ⟨x, _ | ⟨x2, w'⟩⟩
        · simp at hw1len
        · have hx := hw1ws x (by simp)
          have hxs : x = ' ' := by
            apply hprops.2 x _ hx
            rw [hcs]
            exact List.mem_append.mpr (Or.inl (List.mem_append.mpr (Or.inr (by simp))))
          rw [hxs]
        · exfalso
          have hx := hw1ws x (by simp)
          have hx2 := hw1ws x2 (by simp)
          have h1 : noWsRun ((x :: x2 :: w') ++ (ms ++ (w2 ++ ys))) = true :=
            noWsRun_append_right hnorm1
          exact noWsRun_pair (by simpa using h1) ⟨hx, hx2⟩
      have hw2e : w2 = [' '] := by
        have hnorm2 : noWsRun (w2 ++ ys) = true :=
          noWsRun_append_right (noWsRun_append_right (noWsRun_append_right hnorm1))
        rcases w2 with _ | ⟨x, _ | ⟨x2, w'⟩⟩
        · simp at hw2len
        · have hx := hw2ws x (by simp)
          have hxs : x = ' ' := by
            apply hprops.2 x _ hx
            rw [hcs]
            refine List.mem_append.mpr (Or.inr ?_)
            exact List.mem_append.mpr (Or.inl (List.mem_append.mpr (Or.inr (by simp))))
          rw [hxs]
        · exfalso
          have hx := hw2ws x (by simp)
          have hx2 := hw2ws x2 (by simp)
          exact noWsRun_pair (by simpa using hnorm2) ⟨hx, hx2⟩
      refine ⟨ds, ms, ys, hds1, hds2, hdsd, hms3, hmsa, hys4, hysd, ?_⟩
      rw [hcs, hw1e, hw2e]
      simp [List.append_assoc]

/-- Concrete instances of claim C6: the three examples from the spec. -/
theorem parseDateToISO_spec_witness :
    parseDateToISO ("5 Jan 2024") = ("2024-01-05")
    ∧ parseDateToISO ("31 Dec 1999") = ("1999-12-31")
    ∧ parseDateToISO ("Jan 5 2024") = ("") := by
  refine ⟨?_, ?_, ?_⟩
  · have h := (parseDateToISO_spec ("5 Jan 2024")).1 ['5'] ['J', 'a', 'n']
      ['2', '0', '2', '4'] (by decide) (by decide) (by decide) (by decide) (by decide)
      (by decide) (by decide) (by decide)
    rw [h]
    decide
  · have h := (parseDateToISO_spec ("31 Dec 1999")).1 ['3', '1'] ['D', 'e', 'c']
      ['1', '9', '9', '9'] (by decide) (by decide) (by decide) (by decide) (by decide)
      (by decide) (by decide) (by decide)
    rw [h]
    decide
  · by_contra hne
    have hds := (parseDateToISO_spec ("Jan 5 2024")).2 hne
    obtain ⟨d, m, y, hd1, _, hd, _, _, _, _, heq⟩ := hds
    have hfirst : ('J' : Char) = (d ++ ' ' :: (m ++ ' ' :: y)).headD 'J' := by
      rw [← heq]
      decide
    rcases d with _ | ⟨c0, d'⟩
    · simp at hd1
    · have : isDigitCh c0 = true := hd c0 (by simp)
      rw [List.cons_append] at hfirst
      simp only [List.headD_cons] at hfirst
      rw [← hfirst] at this
      simp [isDigitCh] at this

theorem digit_toUpper {c : Char} (h : isDigitCh c = true) : c.toUpper = c := by
  simp only [isDigitCh, Bool.and_eq_true, decide_eq_true_eq] at h
  have h2 : c.toNat ≤ 57 := by
    have h3 := h.2
    rw [Char.le_def] at h3
    exact UInt32.toNat_le_of_le (by norm_num) h3
  rw [Char.toUpper]
  rw [if_neg (by omega)]

theorem isCurrency3_head_up {a b c : Char} (h : isCurrency3 a b c = true) :
    a.toUpper = 'U' ∨ a.toUpper = 'G' ∨ a.toUpper = 'E' := by
  rw [isCurrency3] at h
  rcases Bool.or_eq_true_iff.mp h with h2 | h2
  · rcases Bool.or_eq_true_iff.mp h2 with h3 | h3
    · rcases Bool.and_eq_true_iff.mp h3 with ⟨h4, _⟩
      rcases Bool.and_eq_true_iff.mp h4 with ⟨h5, _⟩
      exact Or.inl (of_decide_eq_true h5)
    · rcases Bool.and_eq_true_iff.mp h3 with ⟨h4, _⟩
      rcases Bool.and_eq_true_iff.mp h4 with ⟨h5, _⟩
      exact Or.inr (Or.inl (of_decide_eq_true h5))
  · rcases Bool.and_eq_true_iff.mp h2 with ⟨h4, _⟩
    rcases Bool.and_eq_true_iff.mp h4 with ⟨h5, _⟩
    exact Or.inr (Or.inr (of_decide_eq_true h5))

theorem digit_not_currency3 {c b d : Char} (h : isDigitCh c = true) :
    isCurrency3 c b d = false := by
  rcases hcur : isCurrency3 c b d with _ | _
  · rfl
  · exfalso
    rcases isCurrency3_head_up hcur with h1 | h1 | h1 <;>
      (rw [digit_toUpper h] at h1; rw [h1] at h; exact absurd h (by decide))

theorem currency3_head {a b c : Char} (h : isCurrency3 a b c = true) :
    a ≠ '+' ∧ a ≠ '-' ∧ a ≠ '$' ∧ a ≠ '£' ∧ a ≠ '€' ∧ jsWs a = false := by
  have hup := isCurrency3_head_up h
  refine ⟨?_, ?_, ?_, ?_, ?_, ?_⟩
  · intro he
    subst he
    rcases hup with h1 | h1 | h1 <;> exact absurd h1 (by decide)
  · intro he
    subst he
    rcases hup with h1 | h1 | h1 <;> exact absurd h1 (by decide)
  · intro he
    subst he
    rcases hup with h1 | h1 | h1 <;> exact absurd h1 (by decide)
  · intro he
    subst he
    rcases hup with h1 | h1 | h1 <;> exact absurd h1 (by decide)
  · intro he
    subst he
    rcases hup with h1 | h1 | h1 <;> exact absurd h1 (by decide)
  · rcases hw : jsWs a with _ | _
    · rfl
    · exfalso
      simp only [jsWs, Bool.or_eq_true, decide_eq_true_eq] at hw
      rcases hw with ((((h1 | h1) | h1) | h1) | h1) | h1 <;>
        (subst h1; rcases hup with h2 | h2 | h2 <;> exact absurd h2 (by decide))

theorem signPart_cons_neg {c : Char} (rest : List Char) (h1 : c ≠ '+') (h2 : c ≠ '-') :
    signPart (c :: rest) = (("") , c :: rest) := by
  rw [signPart, if_neg (by simp [h1, h2])]

theorem currencyPart_symbol {c : Char} (rest : List Char)
    (h : c = '$' ∨ c = '£' ∨ c = '€') : currencyPart (c :: rest) = rest := by
  rw [currencyPart.eq_def]
  dsimp only
  rcases h with rfl | rfl | rfl <;> rw [if_pos (by decide)]

theorem currencyPart_digit_head {c : Char} (rest : List Char) (h : isDigitCh c = true) :
    currencyPart (c :: rest) = c :: rest := by
  rw [currencyPart.eq_def]
  dsimp only
  have hsym : ¬((c = '$' || c = '£' || c = '€') = true) := by
    simp only [Bool.or_eq_true, decide_eq_true_eq]
    rintro ((rfl | rfl) | rfl) <;> exact absurd h (by decide)
  rw [if_neg hsym]
  cases rest with
  | nil => rfl
  | cons b t =>
    cases t with
    | nil => rfl
    | cons d t2 =>
      dsimp only
      rw [if_neg (by simp [digit_not_currency3 h])]

theorem currencyPart_code {a b c : Char} (rest : List Char) (h : isCurrency3 a b c = true) :
    currencyPart (a :: b :: c :: rest) = rest := by
  obtain ⟨_, _, h3, h4, h5, _⟩ := currency3_head h
  rw [currencyPart.eq_def]
  dsimp only
  rw [if_neg (by simp [h3, h4, h5])]
  rw [if_pos h]

theorem dropWhile_all_eq_nil {p : Char → Bool} (l : List Char)
    (h : ∀ c ∈ l, p c = true) : l.dropWhile p = [] := by
  have h2 := dropWhile_all_append l h []
  simpa using h2

theorem takeWhile_all_eq_self {p : Char → Bool} (l : List Char)
    (h : ∀ c ∈ l, p c = true) : l.takeWhile p = l := by
  have h2 := takeWhile_all_append l h []
  simpa using h2

theorem digitsPart_shape (grp frac : List Char)
    (hgrp : ∃ d rest, grp = d :: rest ∧ isDigitCh d = true
      ∧ ∀ c ∈ rest, digitOrComma c = true)
    (hfrac : frac = [] ∨ ∃ a b, frac = ['.', a, b] ∧ isDigitCh a = true ∧ isDigitCh b = true) :
    digitsPart (grp ++ frac) = some (grp ++ frac, []) := by
  obtain ⟨d, rest, rfl, hd, hrest⟩ := hgrp
  rw [List.cons_append, digitsPart.eq_def]
  dsimp only
  rw [if_pos hd]
  rcases hfrac with rfl | ⟨a, b, rfl, ha, hb⟩
  · rw [List.append_nil, dropWhile_all_eq_nil rest hrest, takeWhile_all_eq_self rest hrest]
  · rw [dropWhile_all_append rest hrest, takeWhile_all_append rest hrest,
      dropWhile_cons_neg _ (by decide : digitOrComma '.' = false),
      takeWhile_cons_neg _ (by decide : digitOrComma '.' = false), List.append_nil]
    show (if (isDigitCh a && isDigitCh b) = true
        then some (d :: rest ++ ['.', a, b], ([] : List Char))
        else some (d :: rest, ['.', a, b])) = some (d :: (rest ++ ['.', a, b]), [])
    rw [if_pos (by rw [ha, hb]; rfl)]
    simp

theorem tryAmount_shape (sign curr sp grp frac : List Char)
    (hsign : sign = [] ∨ sign = ['+'] ∨ sign = ['-'])
    (hcurr : curr = [] ∨ curr = ['$'] ∨ curr = ['£'] ∨ curr = ['€']
      ∨ ∃ a b c, curr = [a, b, c] ∧ isCurrency3 a b c = true)
    (hsp : sp = [] ∨ sp = [' '])
    (hgrp : ∃ d rest, grp = d :: rest ∧ isDigitCh d = true
      ∧ ∀ c ∈ rest, digitOrComma c = true)
    (hfrac : frac = [] ∨ ∃ a b, frac = ['.', a, b] ∧ isDigitCh a = true ∧ isDigitCh b = true) :
    tryAmount (sign ++ (curr ++ (sp ++ (grp ++ frac))))
      = some (String.mk sign, grp ++ frac) := by
  obtain ⟨d, rest, hgrpe, hd, hrest⟩ := hgrp
  have hdp : d ≠ '+' := by intro he; rw [he] at hd; exact absurd hd (by decide)
  have hdm : d ≠ '-' := by intro he; rw [he] at hd; exact absurd hd (by decide)
  have hdw : jsWs d = false := digit_not_ws hd
  have hgf : grp ++ frac = d :: (rest ++ frac) := by rw [hgrpe, List.cons_append]
  have hT : (sp ++ (grp ++ frac)).dropWhile jsWs = grp ++ frac := by
    rcases hsp with rfl | rfl
    · rw [List.nil_append, hgf, dropWhile_cons_neg _ hdw]
    · rw [List.singleton_append, List.dropWhile_cons, if_pos (by decide), hgf,
        dropWhile_cons_neg _ hdw]
  have hdig : digitsPart (grp ++ frac) = some (grp ++ frac, []) :=
    digitsPart_shape grp frac ⟨d, rest, hgrpe, hd, hrest⟩ hfrac
  have hTdrop : (grp ++ frac).dropWhile jsWs = grp ++ frac := by
    rw [hgf, dropWhile_cons_neg _ hdw]
  have hmain : digitsPart
      ((currencyPart ((curr ++ (sp ++ (grp ++ frac))).dropWhile jsWs)).dropWhile jsWs)
      = some (grp ++ frac, []) := by
    rcases hcurr with rfl | rfl | rfl | rfl | ⟨a, b, c, rfl, hcur3⟩
    · rw [List.nil_append, hT]
      rw [hgf, currencyPart_digit_head _ hd, ← hgf, hTdrop, hdig]
    · rw [List.singleton_append, dropWhile_cons_neg _ (by decide),
        currencyPart_symbol _ (Or.inl rfl), hT, hdig]
    · rw [List.singleton_append, dropWhile_cons_neg _ (by decide),
        currencyPart_symbol _ (Or.inr (Or.inl rfl)), hT, hdig]
    · rw [List.singleton_append, dropWhile_cons_neg _ (by decide),
        currencyPart_symbol _ (Or.inr (Or.inr rfl)), hT, hdig]
    · obtain ⟨_, _, _, _, _, haw⟩ := currency3_head hcur3
      rw [show ([a, b, c] ++ (sp ++ (grp ++ frac)))
          = a :: b :: c :: (sp ++ (grp ++ frac)) from rfl,
        dropWhile_cons_neg _ haw, currencyPart_code _ hcur3, hT, hdig]
  have hsign2 : signPart (sign ++ (curr ++ (sp ++ (grp ++ frac))))
      = (String.mk sign, curr ++ (sp ++ (grp ++ frac))) := by
    rcases hsign with rfl | rfl | rfl
    · rw [List.nil_append]
      rcases hcurr with rfl | rfl | rfl | rfl | ⟨a, b, c, rfl, hcur3⟩
      · rw [List.nil_append]
        rcases hsp with rfl | rfl
        · rw [List.nil_append, hgf, signPart_cons_neg _ hdp hdm, ← hgf]
        · rw [List.singleton_append, signPart_cons_neg _ (by decide) (by decide)]
      · rw [List.singleton_append, signPart_cons_neg _ (by decide) (by decide)]
      · rw [List.singleton_append, signPart_cons_neg _ (by decide) (by decide)]
      · rw [List.singleton_append, signPart_cons_neg _ (by decide) (by decide)]
      · obtain ⟨h1, h2, _, _, _, _⟩ := currency3_head hcur3
        rw [show ([a, b, c] ++ (sp ++ (grp ++ frac)))
            = a :: (b :: c :: (sp ++ (grp ++ frac))) from rfl,
          signPart_cons_neg _ h1 h2]
    · rw [List.singleton_append, signPart, if_pos (by decide)]
    · rw [List.singleton_append, signPart, if_pos (by decide)]
  rw [tryAmount, hsign2]
  dsimp only
  rw [hmain]

theorem findAmount_of_tryAmount {l : List Char} {r : String × List Char}
    (h : tryAmount l = some r) : findAmount l = some r := by
  cases l with
  | nil => exact absurd h (by simp [tryAmount, signPart, currencyPart, digitsPart])
  | cons c cs =>
    rw [findAmount, h]

theorem signPart_snd_subset : ∀ l : List Char, ∀ c ∈ (signPart l).2, c ∈ l := by
  intro l
  cases l with
  | nil => intro c hc; exact hc
  | cons a t =>
    intro c hc
    rw [signPart] at hc
    by_cases ha : (a = '+' || a = '-') = true
    · rw [if_pos ha] at hc
      exact List.mem_cons_of_mem a hc
    · rw [if_neg ha] at hc
      exact hc

theorem currencyPart_subset : ∀ l : List Char, ∀ c ∈ currencyPart l, c ∈ l := by
  intro l
  cases l with
  | nil => intro c hc; exact hc
  | cons a t =>
    intro c hc
    rw [currencyPart.eq_def] at hc
    dsimp only at hc
    by_cases ha : (a = '$' || a = '£' || a = '€') = true
    · rw [if_pos ha] at hc
      exact List.mem_cons_of_mem a hc
    · rw [if_neg ha] at hc
      cases t with
      | nil => exact hc
      | cons b t2 =>
        cases t2 with
        | nil => exact hc
        | cons d t3 =>
          dsimp only at hc
          by_cases hcur : isCurrency3 a b d = true
          · rw [if_pos hcur] at hc
            exact List.mem_cons_of_mem a (List.mem_cons_of_mem b (List.mem_cons_of_mem d hc))
          · rw [if_neg hcur] at hc
            exact hc

theorem digitsPart_digit_head {c : Char} (cs : List Char) (h : isDigitCh c = true) :
    ∃ br r, digitsPart (c :: cs) = some (c :: br, r) := by
  rw [digitsPart.eq_def]
  dsimp only
  rw [if_pos h]
  split
  · split
    · exact ⟨_, _, rfl⟩
    · exact ⟨_, _, rfl⟩
  · exact ⟨_, _, rfl⟩

theorem digitsPart_some {l body r : List Char} (h : digitsPart l = some (body, r)) :
    ∃ c t, l = c :: t ∧ isDigitCh c = true ∧ ∃ br, body = c :: br := by
  cases l with
  | nil => exact absurd h (by simp [digitsPart])
  | cons c t =>
    rw [digitsPart.eq_def] at h
    dsimp only at h
    by_cases hd : isDigitCh c = true
    · rw [if_pos hd] at h
      refine ⟨c, t, rfl, hd, ?_⟩
      split at h
      · split at h
        · simp only [Option.some.injEq, Prod.mk.injEq] at h
          exact ⟨_, h.1.symm⟩
        · simp only [Option.some.injEq, Prod.mk.injEq] at h
          exact ⟨_, h.1.symm⟩
      · simp only [Option.some.injEq, Prod.mk.injEq] at h
        exact ⟨_, h.1.symm⟩
    · rw [if_neg hd] at h
      exact absurd h (by simp)

theorem tryAmount_some_digit {l : List Char} {sg : String} {body : List Char}
    (h : tryAmount l = some (sg, body)) :
    (∃ c ∈ l, isDigitCh c = true) ∧ ∃ d br, body = d :: br ∧ isDigitCh d = true := by
  rw [tryAmount] at h
  rcases hdp : digitsPart ((currencyPart ((signPart l).2.dropWhile jsWs)).dropWhile jsWs)
    with _ | ⟨b, r⟩
  · rw [hdp] at h
    simp at h
  · rw [hdp] at h
    dsimp only at h
    simp only [Option.some.injEq, Prod.mk.injEq] at h
    obtain ⟨d, t, hl, hd, br, hbody⟩ := digitsPart_some hdp
    refine ⟨⟨d, ?_, hd⟩, d, br, by rw [← h.2, hbody], hd⟩
    have h1 : d ∈ (currencyPart ((signPart l).2.dropWhile jsWs)).dropWhile jsWs := by
      rw [hl]
      exact List.mem_cons_self _ _
    have h2 := mem_dropWhile_imp _ d h1
    have h3 := currencyPart_subset _ d h2
    have h4 := mem_dropWhile_imp _ d h3
    exact signPart_snd_subset l d h4

theorem findAmount_none : ∀ l : List Char, (∀ c ∈ l, isDigitCh c = false) →
    findAmount l = none := by
  intro l
  induction l with
  | nil => intro _; rfl
  | cons c cs ih =>
    intro h
    rw [findAmount]
    rcases htry : tryAmount (c :: cs) with _ | ⟨sg, body⟩
    · exact ih fun c2 hc2 => h c2 (List.mem_cons_of_mem c hc2)
    · obtain ⟨⟨c0, hc0, hc0d⟩, _⟩ := tryAmount_some_digit htry
      rw [h c0 hc0] at hc0d
      exact absurd hc0d (by simp)

theorem tryAmount_digit_head {c : Char} (cs : List Char) (h : isDigitCh c = true) :
    ∃ br, tryAmount (c :: cs) = some (("") , c :: br) := by
  have h1 : signPart (c :: cs) = (("") , c :: cs) :=
    signPart_cons_neg cs (by intro he; rw [he] at h; exact absurd h (by decide))
      (by intro he; rw [he] at h; exact absurd h (by decide))
  obtain ⟨br, r, hdig⟩ := digitsPart_digit_head cs h
  refine ⟨br, ?_⟩
  rw [tryAmount, h1]
  dsimp only
  rw [dropWhile_cons_neg _ (digit_not_ws h), currencyPart_digit_head _ h,
    dropWhile_cons_neg _ (digit_not_ws h), hdig]

theorem findAmount_digit : ∀ l : List Char, (∃ c ∈ l, isDigitCh c = true) →
    ∃ sg d br, findAmount l = some (sg, d :: br) ∧ isDigitCh d = true := by
  intro l
  induction l with
  | nil =>
    rintro ⟨c, hc, _⟩
    exact absurd hc (List.not_mem_nil c)
  | cons c cs ih =>
    rintro ⟨c0, hc0, hc0d⟩
    rw [findAmount]
    rcases htry : tryAmount (c :: cs) with _ | ⟨sg, body⟩
    · rcases List.mem_cons.mp hc0 with rfl | hmem
      · obtain ⟨br, habs⟩ := tryAmount_digit_head cs hc0d
        rw [habs] at htry
        exact absurd htry (by simp)
      · exact ih ⟨c0, hmem, hc0d⟩
    · obtain ⟨_, d, br, hbody, hd⟩ := tryAmount_some_digit htry
      exact ⟨sg, d, br, by rw [hbody], hd⟩

theorem mem_collapse_imp : ∀ (cs : List Char) (b : Bool), ∀ c ∈ collapseWsAux b cs,
    c ∈ cs ∨ c = ' ' := by
  intro cs
  induction cs with
  | nil => intro b c hc; exact absurd hc (List.not_mem_nil c)
  | cons a t ih =>
    intro b c hc
    rw [collapseWsAux] at hc
    by_cases ha : jsWs a = true
    · rw [if_pos ha] at hc
      cases b with
      | true =>
        rcases ih true c hc with h | h
        · exact Or.inl (List.mem_cons_of_mem a h)
        · exact Or.inr h
      | false =>
        rcases List.mem_cons.mp hc with h | h
        · exact Or.inr h
        · rcases ih true c h with h2 | h2
          · exact Or.inl (List.mem_cons_of_mem a h2)
          · exact Or.inr h2
    · rw [if_neg ha] at hc
      rcases List.mem_cons.mp hc with h | h
      · exact Or.inl (h ▸ List.mem_cons_self a t)
      · rcases ih false c h with h2 | h2
        · exact Or.inl (List.mem_cons_of_mem a h2)
        · exact Or.inr h2

theorem mem_collapse_of : ∀ (cs : List Char) (b : Bool), ∀ c ∈ cs, jsWs c = false →
    c ∈ collapseWsAux b cs := by
  intro cs
  induction cs with
  | nil => intro b c hc; exact absurd hc (List.not_mem_nil c)
  | cons a t ih =>
    intro b c hc hcw
    rw [collapseWsAux]
    by_cases ha : jsWs a = true
    · rw [if_pos ha]
      have hct : c ∈ t := by
        rcases List.mem_cons.mp hc with h | h
        · rw [h] at hcw
          rw [hcw] at ha
          exact absurd ha (by simp)
        · exact h
      cases b with
      | true => exact ih true c hct hcw
      | false => exact List.mem_cons_of_mem ' ' (ih true c hct hcw)
    · rw [if_neg ha]
      rcases List.mem_cons.mp hc with h | h
      · exact h ▸ List.mem_cons_self a _
      · exact List.mem_cons_of_mem a (ih false c h hcw)

theorem mem_dropWhile_of {p : Char → Bool} : ∀ l : List Char, ∀ c ∈ l, p c = false →
    c ∈ l.dropWhile p := by
  intro l
  induction l with
  | nil => intro c hc; exact absurd hc (List.not_mem_nil c)
  | cons a t ih =>
    intro c hc hcp
    rw [List.dropWhile_cons]
    by_cases ha : p a = true
    · rw [if_pos (by simp [ha])]
      have hct : c ∈ t := by
        rcases List.mem_cons.mp hc with h | h
        · rw [h] at hcp
          rw [hcp] at ha
          exact absurd ha (by simp)
        · exact h
      exact ih c hct hcp
    · rw [if_neg (by simp [Bool.not_eq_true] at ha; simp [ha])]
      exact hc

theorem mem_trimEndWs_imp : ∀ l : List Char, ∀ c ∈ trimEndWs l, c ∈ l := by
  intro l c hc
  obtain ⟨s, hs⟩ := trimEndWs_prefix l
  rw [hs]
  exact List.mem_append.mpr (Or.inl hc)

theorem mem_trimEndWs_of : ∀ l : List Char, ∀ c ∈ l, jsWs c = false → c ∈ trimEndWs l := by
  intro l
  induction l with
  | nil => intro c hc; exact absurd hc (List.not_mem_nil c)
  | cons a t ih =>
    intro c hc hcw
    rw [trimEndWs]
    cases htr : trimEndWs t with
    | nil =>
      rcases List.mem_cons.mp hc with h | h
      · subst h
        rw [if_neg (by simp [hcw])]
        exact List.mem_singleton.mpr rfl
      · have := ih c h hcw
        rw [htr] at this
        exact absurd this (List.not_mem_nil c)
    | cons d r =>
      rcases List.mem_cons.mp hc with h | h
      · exact h ▸ List.mem_cons_self a _
      · have := ih c h hcw
        rw [htr] at this
        exact List.mem_cons_of_mem a this

theorem normalizeSpace_mem_imp {s : String} {c : Char}
    (hc : c ∈ (normalizeSpace s).data) : c ∈ s.data ∨ c = ' ' := by
  have h1 : c ∈ (collapseWsAux false s.data).dropWhile jsWs :=
    mem_trimEndWs_imp _ c hc
  have h2 := mem_dropWhile_imp _ c h1
  exact mem_collapse_imp s.data false c h2

theorem normalizeSpace_mem_of {s : String} {c : Char}
    (hc : c ∈ s.data) (hcw : jsWs c = false) : c ∈ (normalizeSpace s).data := by
  exact mem_trimEndWs_of _ c
    (mem_dropWhile_of _ c (mem_collapse_of s.data false c hc hcw) hcw) hcw

/-- Claim C7: for every amount string of the shape optional sign, optional
currency marker (symbol or 3-letter code, case-insensitive), optional
space, digit group with optional comma separators, optional
exactly-two-digit fraction (stated on the whitespace-normalized form,
which `normalizeSpace` fixes for literally-shaped inputs),
`parseAmountValue` returns the matched digits with the currency marker
and the commas removed and the sign preserved; and every string with no
match — equivalently, no decimal digit at all — yields the empty
string. -/
theorem parseAmountValue_spec (raw : String) :
    (∀ (sign curr sp grp frac : List Char),
      (sign = [] ∨ sign = ['+'] ∨ sign = ['-']) →
      (curr = [] ∨ curr = ['$'] ∨ curr = ['£'] ∨ curr = ['€']
        ∨ ∃ a b c, curr = [a, b, c] ∧ isCurrency3 a b c = true) →
      (sp = [] ∨ sp = [' ']) →
      (∃ d rest, grp = d :: rest ∧ isDigitCh d = true
        ∧ ∀ c ∈ rest, digitOrComma c = true) →
      (frac = [] ∨ ∃ a b, frac = ['.', a, b] ∧ isDigitCh a = true ∧ isDigitCh b = true) →
      (normalizeSpace raw).data = sign ++ (curr ++ (sp ++ (grp ++ frac))) →
      parseAmountValue raw
        = String.mk sign ++ String.mk ((grp ++ frac).filter (fun c => !(c = ','))))
    ∧ ((∀ c ∈ raw.data, isDigitCh c = false) → parseAmountValue raw = "") := by
  constructor
  · intro sign curr sp grp frac hsign hcurr hsp hgrp hfrac heq
    rw [parseAmountValue, heq, findAmount_of_tryAmount
      (tryAmount_shape sign curr sp grp frac hsign hcurr hsp hgrp hfrac)]
  · intro hnod
    rw [parseAmountValue]
    have hnone : findAmount (normalizeSpace raw).data = none := by
      apply findAmount_none
      intro c hc
      rcases normalizeSpace_mem_imp hc with h | h
      · exact hnod c h
      · rw [h]
        decide
    rw [hnone]

/-- Concrete instances of claim C7: the spec's three examples. -/
theorem parseAmountValue_spec_witness :
    parseAmountValue ("-$1,234.56") = ("-1234.56")
    ∧ parseAmountValue ("USD 9.00") = ("9.00")
    ∧ parseAmountValue ("free") = ("") := by
  refine ⟨?_, ?_, ?_⟩
  · have h := (parseAmountValue_spec ("-$1,234.56")).1 ['-'] ['$'] []
      ['1', ',', '2', '3', '4'] ['.', '5', '6']
      (Or.inr (Or.inr rfl)) (Or.inr (Or.inl rfl)) (Or.inl rfl)
      ⟨'1', [',', '2', '3', '4'], rfl, by decide, by decide⟩
      (Or.inr ⟨'5', '6', rfl, by decide, by decide⟩)
      (by decide)
    rw [h]
    decide
  · have h := (parseAmountValue_spec ("USD 9.00")).1 [] ['U', 'S', 'D'] [' ']
      ['9'] ['.', '0', '0']
      (Or.inl rfl)
      (Or.inr (Or.inr (Or.inr (Or.inr ⟨'U', 'S', 'D', rfl, by decide⟩))))
      (Or.inr rfl)
      ⟨'9', [], rfl, by decide, by decide⟩
      (Or.inr ⟨'0', '0', rfl, by decide, by decide⟩)
      (by decide)
    rw [h]
    decide
  · exact (parseAmountValue_spec ("free")).2 (by decide)

/-- Claim C10: the amount pattern is unanchored and every component but
the digit group is optional, so any input containing at least one decimal
digit produces a non-empty result from `parseAmountValue`, even with no
currency marker or amount formatting anywhere. -/
theorem parseAmountValue_digit_spec (raw : String)
    (h : ∃ c ∈ raw.data, isDigitCh c = true) : parseAmountValue raw ≠ "" := by
  obtain ⟨c, hc, hcd⟩ := h
  have hcn : c ∈ (normalizeSpace raw).data := normalizeSpace_mem_of hc (digit_not_ws hcd)
  obtain ⟨sg, d, br, hfind, hd⟩ := findAmount_digit (normalizeSpace raw).data ⟨c, hcn, hcd⟩
  rw [parseAmountValue, hfind]
  dsimp only
  intro hcontra
  have hdne : (!(d = ',')) = true := by
    have : d ≠ ',' := by
      intro he
      rw [he] at hd
      exact absurd hd (by decide)
    simp [this]
  have hdata : (sg ++ String.mk (List.filter (fun c => !(c = ',')) (d :: br))).data
      = sg.data ++ List.filter (fun c => !(c = ',')) (d :: br) := rfl
  rw [hcontra] at hdata
  have hfil : List.filter (fun c => !(c = ',')) (d :: br)
      = d :: List.filter (fun c => !(c = ',')) br := by
    rw [List.filter_cons, if_pos hdne]
  rw [hfil] at hdata
  have h0 : ([] : List Char) = sg.data ++ d :: List.filter (fun c => !(c = ',')) br := hdata
  exact absurd h0.symm (by simp)

/-- Concrete instance of claim C10: a bare digit group in unrelated text
is still extracted. -/
theorem parseAmountValue_digit_spec_witness :
    parseAmountValue ("about 1,000 people") ≠ ("") :=
  parseAmountValue_digit_spec ("about 1,000 people") ⟨'1', by decide, by decide⟩
